import Mathlib

/-! pomerol: operator presets and the grand-canonical density matrix

A shallow embedding of `src/OperatorPresets.cpp`, `src/DensityMatrix.cpp` and the
type declarations of `src/Misc.h`, followed by theorems about them.

Conventions of the embedding

* `ParticleIndex` is `unsigned short` (Misc.h:75): a natural number below `2^16`.
  A loop counter of that type wraps modulo `2^16`; where a counter is compared
  against a `size_t` bound (`Sz::generateTerms`) the wrap is modelled explicitly
  and the loop carries fuel.
* `MelemType` values that occur here are integers and half-integers; they are
  embedded in `ℚ`.
* `RealType` is an arbitrary field `K`; the exponential is passed as a function
  `expf : K → K`, instantiated with `Real.exp` in the theorems.
* A C++ exception or an undefined dereference is a value of `Exception` returned
  through `Except`.
-/

namespace Pomerol

/-! ## Misc.h -/

/-- Index of one mode: `typedef unsigned short ParticleIndex` (Misc.h:75). -/
abbrev ParticleIndex := Nat

/-- Number of values of an `unsigned short`: counters of type `ParticleIndex` wrap at this bound. -/
def ParticleIndexModulus : Nat := 65536

/-- Progress of a computable object: `enum ObjectStatus {Constructed, Prepared, Computed}` (Misc.h:81). -/
inductive ObjectStatus where
  | Constructed
  | Prepared
  | Computed
  deriving DecidableEq, Repr

/-- Integer value of the enumerator, the order used by `Status >= Prepared`. -/
def ObjectStatus.toNat : ObjectStatus → Nat
  | .Constructed => 0
  | .Prepared => 1
  | .Computed => 2

instance : LE ObjectStatus := ⟨fun a b => a.toNat ≤ b.toNat⟩

instance : LT ObjectStatus := ⟨fun a b => a.toNat < b.toNat⟩

instance (a b : ObjectStatus) : Decidable (a ≤ b) := inferInstanceAs (Decidable (a.toNat ≤ b.toNat))

instance (a b : ObjectStatus) : Decidable (a < b) := inferInstanceAs (Decidable (a.toNat < b.toNat))

/-- Permutation of 4 elements: `struct Permutation4` with `size_t perm[4]` and `int sign`
(Misc.h:104-111). -/
structure Permutation4 where
  perm : List Nat
  sign : Int
  deriving DecidableEq, Repr

/-- The table `permutations4` (Misc.h:113-118). -/
def permutations4 : List Permutation4 :=
  [⟨[0, 1, 2, 3], 1⟩, ⟨[0, 1, 3, 2], -1⟩, ⟨[0, 2, 1, 3], -1⟩,
   ⟨[0, 2, 3, 1], 1⟩, ⟨[0, 3, 1, 2], 1⟩, ⟨[0, 3, 2, 1], -1⟩,
   ⟨[1, 0, 2, 3], -1⟩, ⟨[1, 0, 3, 2], 1⟩, ⟨[1, 2, 0, 3], 1⟩,
   ⟨[1, 2, 3, 0], -1⟩, ⟨[1, 3, 0, 2], -1⟩, ⟨[1, 3, 2, 0], 1⟩,
   ⟨[2, 0, 1, 3], 1⟩, ⟨[2, 0, 3, 1], -1⟩, ⟨[2, 1, 0, 3], -1⟩,
   ⟨[2, 1, 3, 0], 1⟩, ⟨[2, 3, 0, 1], 1⟩, ⟨[2, 3, 1, 0], -1⟩,
   ⟨[3, 0, 1, 2], -1⟩, ⟨[3, 0, 2, 1], 1⟩, ⟨[3, 1, 0, 2], 1⟩,
   ⟨[3, 1, 2, 0], -1⟩, ⟨[3, 2, 0, 1], -1⟩, ⟨[3, 2, 1, 0], 1⟩]

/-- Number of inversions of a sequence: the pairs of positions whose entries are out of order.
A permutation is even exactly when this number is even. -/
def inversions : List Nat → Nat
  | [] => 0
  | a :: rest => (rest.filter (fun b => b < a)).length + inversions rest

/-- Failures of the embedded code: the exception classes thrown in the sources
(`exStatusMismatch`, `exWrongLabel`, `H5::DataSetIException`, `H5::GroupIException`), and the
undefined accesses (null part pointer, index outside a vector) that the sources can reach. -/
inductive Exception where
  | exStatusMismatch
  | exWrongLabel
  | nullDereference
  | outOfRange
  | h5DataSetIException
  | h5GroupIException
  deriving DecidableEq, Repr

/-- The failures that are undefined behaviour of the C++ program, after which the object has no
defined state; the others are thrown exceptions. -/
def Exception.isUndefined : Exception → Bool
  | .nullDereference => true
  | .outOfRange => true
  | _ => false

/-- Matrix element type; the presets only produce integers and half-integers. -/
abbrev MelemType := ℚ

/-! ## FockState and the generic operator action (declarations absent from the sources) -/

/-- Modelled from the spec: FockState, whose declaration is not among the sources. A bit vector;
bit `i` set means mode `i` occupied; compared by raw bit pattern. -/
structure FockState where
  bits : List Bool
  deriving DecidableEq, Repr

/-- Modelled from the spec: `count()` of the bit vector, the number of set bits. -/
def FockState.count (s : FockState) : Nat := s.bits.count true

/-- Modelled from the spec: `test(i)` of the bit vector; a mode beyond the width is not occupied. -/
def FockState.test (s : FockState) (i : ParticleIndex) : Bool := s.bits.getD i false

/-- Modelled from the spec: the bit vector with bit `i` written. -/
def FockState.set (s : FockState) (i : ParticleIndex) (b : Bool) : FockState := ⟨s.bits.set i b⟩

/-- Elementary operator `boost::tuple<bool, ParticleIndex>`: `true` creates, `false` annihilates. -/
abbrev ElemOp := Bool × ParticleIndex

/-- One term of an operator: a coefficient and the ordered product of elementary operators. -/
abbrev Term := MelemType × List ElemOp

/-- Result map `std::map<FockState, MelemType>`, kept as an association list with distinct keys. -/
abbrev FockMap := List (FockState × MelemType)

/-- Modelled from the spec: the elementary action on mode `i`, absent from the sources. Creation
fails if mode `i` is occupied, annihilation fails if it is unoccupied; otherwise bit `i` is flipped
and the sign is `(-1)^(number of occupied modes with index < i)`. A mode outside the bit vector
cannot be flipped and fails as well. -/
def ElemOp.act (op : ElemOp) (s : FockState) : Option (FockState × Int) :=
  if s.bits.length ≤ op.2 then none
  else if s.test op.2 = op.1 then none
  else some (s.set op.2 op.1, (-1) ^ ((s.bits.take op.2).count true))

/-- Modelled from the spec: the full operator product of one term applied to a ket. The rightmost
elementary operator acts first; the result is the final state with coefficient times the signs. -/
def Term.actRight (t : Term) (ket : FockState) : Option (FockState × MelemType) :=
  (t.2.foldr
    (fun op acc => acc.bind (fun r => (ElemOp.act op r.1).map (fun r' => (r'.1, r.2 * r'.2))))
    (some (ket, (1 : Int)))).map (fun r => (r.1, t.1 * (r.2 : ℚ)))

/-- Accumulation `output[s] += x` into the result map. -/
def FockMap.accumulate : FockMap → FockState → MelemType → FockMap
  | [], s, x => [(s, x)]
  | (k, v) :: rest, s, x =>
    if k = s then (k, v + x) :: rest else (k, v) :: FockMap.accumulate rest s x

/-- Lookup of a key of the result map. -/
def FockMap.find : FockMap → FockState → Option MelemType
  | [], _ => none
  | (k, v) :: rest, s => if k = s then some v else FockMap.find rest s

/-- Modelled from the spec: generic `actRight`, absent from the sources. Every term is applied to
the ket and its contribution summed into the map; terms that annihilate to zero are dropped. -/
def Operator.actRight (Terms : List Term) (ket : FockState) : FockMap :=
  Terms.foldl
    (fun output t =>
      match Term.actRight t ket with
      | none => output
      | some r => FockMap.accumulate output r.1 r.2)
    []

/-- Modelled from the spec: generic `getMatrixElement(bra, ket)`, absent from the sources. Zero
unless `bra` is among the results of `actRight(ket)`, else the corresponding coefficient. -/
def Operator.getMatrixElement (Terms : List Term) (bra ket : FockState) : MelemType :=
  match FockMap.find (Operator.actRight Terms ket) bra with
  | none => 0
  | some c => c

/-! ## OperatorPresets.cpp -/

namespace OperatorPresets

/-- The preset `N`: the inherited `Terms` and the member `Nmodes`. -/
structure N where
  Terms : List Term
  Nmodes : ParticleIndex

/-- Constructor `N::N(ParticleIndex Nmodes)` (OperatorPresets.cpp:37-46). The counter `index`
stays below `Nmodes`, itself an `unsigned short`, so it never wraps. -/
def N.new (Nmodes : ParticleIndex) : N :=
  { Terms := (List.range Nmodes).foldl
      (fun Terms index => Terms ++ [((1 : MelemType), [(true, index), (false, index)])]) []
    Nmodes := Nmodes }

/-- Closed form `N::getMatrixElement(const FockState &ket)` (OperatorPresets.cpp:60-63). -/
def N.getMatrixElement (_self : N) (ket : FockState) : MelemType := (ket.count : ℚ)

/-- Overload `N::getMatrixElement(const FockState &bra, const FockState &ket)`
(OperatorPresets.cpp:55-58). -/
def N.getMatrixElementBraKet (self : N) (bra ket : FockState) : MelemType :=
  if bra ≠ ket then 0 else self.getMatrixElement ket

/-- Method `N::actRight` (OperatorPresets.cpp:48-53): a fresh map with the single assignment
`output[ket] = getMatrixElement(ket)`. -/
def N.actRight (self : N) (ket : FockState) : FockMap := [(ket, self.getMatrixElement ket)]

/-- The preset `Sz`: the inherited `Terms` and the members of the class. -/
structure Sz where
  Terms : List Term
  Nmodes : ParticleIndex
  SpinUpIndices : List ParticleIndex
  SpinDownIndices : List ParticleIndex

/-- Loop of `Sz::generateTerms` (OperatorPresets.cpp:92-100). The counter `i` is a `ParticleIndex`
compared against `SpinUpIndices.size()`; `++i` wraps modulo `2^16`. The result is `none` when the
fuel is used up before the loop condition fails. Both constructors establish that the two lists
have the same length, so `SpinDownIndices[i]` is within range whenever it is read. -/
def Sz.generateTermsLoop (SpinUpIndices SpinDownIndices : List ParticleIndex) :
    Nat → ParticleIndex → List Term → Option (List Term)
  | 0, _, _ => none
  | fuel + 1, i, Terms =>
    if i < SpinUpIndices.length then
      let Terms1 := Terms ++
        [((1 / 2 : MelemType), [(true, SpinUpIndices.getD i 0), (false, SpinUpIndices.getD i 0)])]
      let Terms2 := Terms1 ++
        [((-1 / 2 : MelemType), [(true, SpinDownIndices.getD i 0), (false, SpinDownIndices.getD i 0)])]
      Sz.generateTermsLoop SpinUpIndices SpinDownIndices fuel ((i + 1) % ParticleIndexModulus) Terms2
    else some Terms

/-- Method `Sz::generateTerms` (OperatorPresets.cpp:87-101), started on the given `Terms`. -/
def Sz.generateTerms (fuel : Nat) (self : Sz) : Option Sz :=
  (Sz.generateTermsLoop self.SpinUpIndices self.SpinDownIndices fuel 0 self.Terms).map
    (fun Terms => { self with Terms := Terms })

/-- Constructor `Sz::Sz(const std::vector<ParticleIndex>&, const std::vector<ParticleIndex>&)`
(OperatorPresets.cpp:80-85). `none`: the fuel ran out inside `generateTerms`;
`some (.error exWrongLabel)`: the constructor threw; `some (.ok sz)`: the constructed operator.
The member `Nmodes` receives the sum of the sizes converted to `unsigned short`. -/
def Sz.new (fuel : Nat) (SpinUpIndices SpinDownIndices : List ParticleIndex) :
    Option (Except Exception Sz) :=
  if SpinUpIndices.length ≠ SpinDownIndices.length then some (.error Exception.exWrongLabel)
  else
    (Sz.generateTerms fuel
      { Terms := []
        Nmodes := (SpinUpIndices.length + SpinDownIndices.length) % ParticleIndexModulus
        SpinUpIndices := SpinUpIndices
        SpinDownIndices := SpinDownIndices }).map Except.ok

/-- The two index loops of `Sz::Sz(ParticleIndex Nmodes)` (OperatorPresets.cpp:73 and 76): the
counter `i`, a `ParticleIndex`, is pushed while `i < bound`; `i++` wraps modulo `2^16`. The result
is `none` when the fuel is used up before the loop condition fails. -/
def Sz.pushIndicesLoop (bound : ParticleIndex) :
    Nat → ParticleIndex → List ParticleIndex → Option (List ParticleIndex)
  | 0, _, _ => none
  | fuel + 1, i, Indices =>
    if i < bound then
      Sz.pushIndicesLoop bound fuel ((i + 1) % ParticleIndexModulus) (Indices ++ [i])
    else some Indices

/-- Constructor `Sz::Sz(ParticleIndex Nmodes)` (OperatorPresets.cpp:69-78). `none`: the fuel ran
out inside one of the loops; `some (.error exWrongLabel)`: the constructor threw;
`some (.ok sz)`: the constructed operator. -/
def Sz.newNmodes (fuel : Nat) (Nmodes : ParticleIndex) : Option (Except Exception Sz) :=
  if Nmodes % 2 = 1 then some (.error Exception.exWrongLabel)
  else
    match Sz.pushIndicesLoop Nmodes fuel (Nmodes / 2) [] with
    | none => none
    | some SpinUpIndices =>
      match Sz.pushIndicesLoop (Nmodes / 2) fuel 0 [] with
      | none => none
      | some SpinDownIndices =>
        (Sz.generateTerms fuel
          { Terms := []
            Nmodes := Nmodes
            SpinUpIndices := SpinUpIndices
            SpinDownIndices := SpinDownIndices }).map Except.ok

/-- The terms pushed by the loop of `Sz::generateTerms` for the remaining index pairs: for each
position the number operator of the spin-up index with coefficient `1/2`, then that of the
spin-down index with coefficient `-1/2`. Used to describe the result of the loop. -/
def Sz.termPairs : List ParticleIndex → List ParticleIndex → List Term
  | up :: ups, down :: downs =>
    ((1 / 2 : MelemType), [(true, up), (false, up)]) ::
      ((-1 / 2 : MelemType), [(true, down), (false, down)]) :: Sz.termPairs ups downs
  | _, _ => []

/-- Closed form `Sz::getMatrixElement(const FockState &ket)` (OperatorPresets.cpp:103-110): two
`int` counters incremented by `ket.test(index)` along the two index vectors. Each counter is at
most the length of its vector, which is below `2^16` for every operator a constructor returns, so
the `int` arithmetic does not overflow. -/
def Sz.getMatrixElement (self : Sz) (ket : FockState) : MelemType :=
  let up_value : Int :=
    self.SpinUpIndices.foldl (fun acc it => acc + (if ket.test it then 1 else 0)) 0
  let down_value : Int :=
    self.SpinDownIndices.foldl (fun acc it => acc + (if ket.test it then 1 else 0)) 0
  (1 / 2 : MelemType) * ((up_value - down_value : Int) : ℚ)

/-- Overload `Sz::getMatrixElement(const FockState &bra, const FockState &ket)`
(OperatorPresets.cpp:112-115). -/
def Sz.getMatrixElementBraKet (self : Sz) (bra ket : FockState) : MelemType :=
  if bra ≠ ket then 0 else self.getMatrixElement ket

/-- Method `Sz::actRight` (OperatorPresets.cpp:117-122). -/
def Sz.actRight (self : Sz) (ket : FockState) : FockMap := [(ket, self.getMatrixElement ket)]

/-- The preset `Cdag`: the inherited `Terms` and the member `index`. -/
structure Cdag where
  Terms : List Term
  index : ParticleIndex

/-- Constructor `Cdag::Cdag(ParticleIndex index)` (OperatorPresets.cpp:128-133). -/
def Cdag.new (index : ParticleIndex) : Cdag :=
  let ops : List ElemOp := [] ++ [(true, index)]
  { Terms := [] ++ [((1 : MelemType), ops)]
    index := index }

/-- The preset `C`: the inherited `Terms` and the member `index`. -/
structure C where
  Terms : List Term
  index : ParticleIndex

/-- Constructor `C::C(ParticleIndex index)` (OperatorPresets.cpp:139-144). -/
def C.new (index : ParticleIndex) : C :=
  let ops : List ElemOp := [] ++ [(false, index)]
  { Terms := [] ++ [((1 : MelemType), ops)]
    index := index }

end OperatorPresets

/-! ## DensityMatrix.cpp -/

/-- Index of a symmetry block. -/
abbrev BlockNumber := Nat

/-- Index of a state inside its block. -/
abbrev InnerQuantumState := Nat

/-- Global index of a basis state. -/
abbrev QuantumState := Nat

/-- Modelled from the spec: StatesClassification, absent from the sources; the three queries that
`DensityMatrix` makes. -/
structure StatesClassification where
  NumberOfBlocks : BlockNumber
  getBlockNumber : QuantumState → BlockNumber
  getInnerState : QuantumState → InnerQuantumState

/-- Modelled from the spec: HamiltonianPart, absent from the sources; a diagonalized block is
represented by its eigenvalues, one per inner state. -/
structure HamiltonianPart (K : Type) where
  eigenvalues : List K

/-- Modelled from the spec: Hamiltonian, absent from the sources; `getPart(BlockNumber)` and
`getGroundEnergy()`. -/
structure Hamiltonian (K : Type) where
  getPart : BlockNumber → HamiltonianPart K
  getGroundEnergy : K

/-- Modelled from the spec: DensityMatrixPart, absent from the sources. It owns the eigenvalues of
its block, the inverse temperature, the ground energy it was given, and one weight per inner
state. -/
structure DensityMatrixPart (K : Type) where
  eigenvalues : List K
  beta : K
  GroundEnergy : K
  weights : List K

/-- Modelled from the spec: constructor of DensityMatrixPart from a diagonalized HamiltonianPart,
`beta` and the global ground energy; the weight vector has the size of the block. -/
def DensityMatrixPart.new {K : Type} [Field K] (hpart : HamiltonianPart K) (beta GroundEnergy : K) :
    DensityMatrixPart K :=
  { eigenvalues := hpart.eigenvalues
    beta := beta
    GroundEnergy := GroundEnergy
    weights := List.replicate hpart.eigenvalues.length 0 }

/-- Modelled from the spec: `computeUnnormalized()`. For eigenvalue `E_i` the weight is
`w_i = exp(-beta * (E_i - E0))`; the part stores the weights and returns their sum. -/
def DensityMatrixPart.computeUnnormalized {K : Type} [Field K] (expf : K → K)
    (self : DensityMatrixPart K) : DensityMatrixPart K × K :=
  let weights := self.eigenvalues.map (fun E => expf (-self.beta * (E - self.GroundEnergy)))
  ({ self with weights := weights }, weights.sum)

/-- Modelled from the spec: `normalize(Z)` divides every weight of the part by `Z` in place. -/
def DensityMatrixPart.normalize {K : Type} [Field K] (self : DensityMatrixPart K) (Z : K) :
    DensityMatrixPart K :=
  { self with weights := self.weights.map (fun w => w / Z) }

/-- Modelled from the spec: `getWeight(InnerQuantumState)` of a part, the stored weight of that
inner state. -/
def DensityMatrixPart.getWeight {K : Type} (self : DensityMatrixPart K) (s : InnerQuantumState) :
    Except Exception K :=
  match self.weights.get? s with
  | some w => .ok w
  | none => .error Exception.outOfRange

/-- Modelled from the spec: `getAverageEnergy()` of a part, the weighted sum of the energy
eigenvalues of the block. -/
def DensityMatrixPart.getAverageEnergy {K : Type} [Field K] (self : DensityMatrixPart K) : K :=
  (List.zipWith (fun w E => w * E) self.weights self.eigenvalues).sum

/-- The class `DensityMatrix`: `beta` (from `Thermal`), `Status` (from `ComputableObject`), the
references `S` and `H`, and `std::vector<DensityMatrixPart*> parts`, where `none` is a null
pointer. -/
structure DensityMatrix (K : Type) where
  beta : K
  Status : ObjectStatus
  S : StatesClassification
  H : Hamiltonian K
  parts : List (Option (DensityMatrixPart K))

/-- Constructor `DensityMatrix::DensityMatrix` (DensityMatrix.cpp:32-34): status `Constructed` and
`S.NumberOfBlocks()` null part pointers. -/
def DensityMatrix.new {K : Type} (S : StatesClassification) (H : Hamiltonian K) (beta : K) :
    DensityMatrix K :=
  { beta := beta
    Status := ObjectStatus.Constructed
    S := S
    H := H
    parts := List.replicate S.NumberOfBlocks none }

/-- Method `DensityMatrix::prepare` (DensityMatrix.cpp:42-52). -/
def DensityMatrix.prepare {K : Type} [Field K] (self : DensityMatrix K) : DensityMatrix K :=
  if self.Status ≥ ObjectStatus.Prepared then self
  else
    let NumOfBlocks : BlockNumber := self.parts.length
    let GroundEnergy : K := self.H.getGroundEnergy
    { self with
      parts := (List.range NumOfBlocks).foldl
        (fun parts n =>
          parts.set n (some (DensityMatrixPart.new (self.H.getPart n) self.beta GroundEnergy)))
        self.parts
      Status := ObjectStatus.Prepared }

/-- First loop of `DensityMatrix::compute` (DensityMatrix.cpp:60-61): every part computes its
unnormalized weights and its sum is added to `Z`. A null part pointer cannot be dereferenced. -/
def DensityMatrix.computeUnnormalizedLoop {K : Type} [Field K] (expf : K → K) :
    List (Option (DensityMatrixPart K)) → K →
      Except Exception (List (Option (DensityMatrixPart K)) × K)
  | [], Z => .ok ([], Z)
  | none :: _, _ => .error Exception.nullDereference
  | some p :: rest, Z =>
    match DensityMatrix.computeUnnormalizedLoop expf rest (Z + (p.computeUnnormalized expf).2) with
    | .error e => .error e
    | .ok r => .ok (some (p.computeUnnormalized expf).1 :: r.1, r.2)

/-- Second loop of `DensityMatrix::compute` (DensityMatrix.cpp:64-65): every part is normalized by
the same `Z`. -/
def DensityMatrix.normalizeLoop {K : Type} [Field K] (Z : K) :
    List (Option (DensityMatrixPart K)) → Except Exception (List (Option (DensityMatrixPart K)))
  | [] => .ok []
  | none :: _ => .error Exception.nullDereference
  | some p :: rest =>
    match DensityMatrix.normalizeLoop Z rest with
    | .error e => .error e
    | .ok r => .ok (some (p.normalize Z) :: r)

/-- Method `DensityMatrix::compute` (DensityMatrix.cpp:54-67). -/
def DensityMatrix.compute {K : Type} [Field K] (expf : K → K) (self : DensityMatrix K) :
    Except Exception (DensityMatrix K) :=
  if self.Status ≥ ObjectStatus.Computed then .ok self
  else
    match DensityMatrix.computeUnnormalizedLoop expf self.parts 0 with
    | .error e => .error e
    | .ok r =>
      match DensityMatrix.normalizeLoop r.2 r.1 with
      | .error e => .error e
      | .ok parts => .ok { self with parts := parts, Status := ObjectStatus.Computed }

/-- Method `DensityMatrix::getWeight` (DensityMatrix.cpp:69-76). -/
def DensityMatrix.getWeight {K : Type} (self : DensityMatrix K) (state : QuantumState) :
    Except Exception K :=
  if self.Status < ObjectStatus.Computed then .error Exception.exStatusMismatch
  else
    let BlockNumber := self.S.getBlockNumber state
    let InnerState := self.S.getInnerState state
    match self.parts.get? BlockNumber with
    | none => .error Exception.outOfRange
    | some none => .error Exception.nullDereference
    | some (some part) => part.getWeight InnerState

/-- The accumulation loop shared by the three averages (DensityMatrix.cpp:92-93, 101-102,
111-112): the value of every part is added to the accumulator. -/
def DensityMatrix.sumOverParts {K : Type} [Field K] (value : DensityMatrixPart K → K) :
    List (Option (DensityMatrixPart K)) → K → Except Exception K
  | [], acc => .ok acc
  | none :: _, _ => .error Exception.nullDereference
  | some p :: rest, acc => DensityMatrix.sumOverParts value rest (acc + value p)

/-- Method `DensityMatrix::getAverageEnergy` (DensityMatrix.cpp:88-95). -/
def DensityMatrix.getAverageEnergy {K : Type} [Field K] (self : DensityMatrix K) :
    Except Exception K :=
  if self.Status < ObjectStatus.Computed then .error Exception.exStatusMismatch
  else DensityMatrix.sumOverParts DensityMatrixPart.getAverageEnergy self.parts 0

/-- Method `DensityMatrix::getAverageOccupancy` (DensityMatrix.cpp:97-104). The per-part
`getAverageOccupancy()` is absent from the sources and is a parameter. -/
def DensityMatrix.getAverageOccupancy {K : Type} [Field K]
    (partAverageOccupancy : DensityMatrixPart K → K) (self : DensityMatrix K) :
    Except Exception K :=
  if self.Status < ObjectStatus.Computed then .error Exception.exStatusMismatch
  else DensityMatrix.sumOverParts partAverageOccupancy self.parts 0

/-- Method `DensityMatrix::getAverageDoubleOccupancy` (DensityMatrix.cpp:108-115). The per-part
`getAverageDoubleOccupancy(i, j)` is absent from the sources and is a parameter. -/
def DensityMatrix.getAverageDoubleOccupancy {K : Type} [Field K]
    (partAverageDoubleOccupancy : DensityMatrixPart K → ParticleIndex → ParticleIndex → K)
    (self : DensityMatrix K) (i j : ParticleIndex) : Except Exception K :=
  if self.Status < ObjectStatus.Computed then .error Exception.exStatusMismatch
  else DensityMatrix.sumOverParts (fun p => partAverageDoubleOccupancy p i j) self.parts 0

/-- Sum over all blocks and all inner states of the stored weights. -/
def DensityMatrix.totalWeight {K : Type} [Field K] (self : DensityMatrix K) : K :=
  (self.parts.map (fun p =>
    match p with
    | none => 0
    | some part => part.weights.sum)).sum

/-- Modelled from the spec: the per-block node of the persisted layout, what
`DensityMatrixPart::save` (absent from the sources) writes: the weight vector of the block. -/
structure H5PartGroup (K : Type) where
  weights : List K

/-- The group `DensityMatrix` of the persisted layout as `DensityMatrix::save` writes it: the
scalar `beta` and the group `parts`, whose children are looked up by name. -/
structure H5DensityMatrixGroup (K : Type) where
  beta : K
  parts : List (String × H5PartGroup K)

/-- The root group handed to `save` and `load`: the group `DensityMatrix` if it exists. -/
abbrev CommonFG (K : Type) := Option (H5DensityMatrixGroup K)

/-- Modelled from the spec: `DensityMatrixPart::save`, absent from the sources. -/
def DensityMatrixPart.save {K : Type} (self : DensityMatrixPart K) : H5PartGroup K :=
  { weights := self.weights }

/-- Modelled from the spec: `DensityMatrixPart::load`, absent from the sources; it overwrites the
weights of the part and leaves the block structure. -/
def DensityMatrixPart.load {K : Type} (self : DensityMatrixPart K) (PartGroup : H5PartGroup K) :
    DensityMatrixPart K :=
  { self with weights := PartGroup.weights }

/-- Lookup `PartsGroup.openGroup(name)` among the children of a group. -/
def openGroup {K : Type} : List (String × H5PartGroup K) → String → Option (H5PartGroup K)
  | [], _ => none
  | (k, g) :: rest, name => if k = name then some g else openGroup rest name

/-- Loop of `DensityMatrix::save` (DensityMatrix.cpp:127-132): for block `n` the group named by
the decimal digits of `n` is created and the part saves itself into it. -/
def DensityMatrix.saveLoop {K : Type} :
    List (Option (DensityMatrixPart K)) → BlockNumber →
      Except Exception (List (String × H5PartGroup K))
  | [], _ => .ok []
  | none :: _, _ => .error Exception.nullDereference
  | some p :: rest, n =>
    match DensityMatrix.saveLoop rest (n + 1) with
    | .error e => .error e
    | .ok groups => .ok ((toString n, p.save) :: groups)

/-- Method `DensityMatrix::save` (DensityMatrix.cpp:117-133); a `const` method, the result is the
root group after the call. `createGroup` fails when the group exists already. -/
def DensityMatrix.save {K : Type} (self : DensityMatrix K) (RootGroup : CommonFG K) :
    Except Exception (CommonFG K) :=
  match RootGroup with
  | some _ => .error Exception.h5GroupIException
  | none =>
    match DensityMatrix.saveLoop self.parts 0 with
    | .error e => .error e
    | .ok PartsGroup => .ok (some { beta := self.beta, parts := PartsGroup })

/-- Loop of `DensityMatrix::load` (DensityMatrix.cpp:148-153) over the remaining block numbers:
the group of block `n` is opened, then `parts[n]->load` is called. The result is the outcome and
the parts as they are when the loop ends or fails. -/
def DensityMatrix.loadLoop {K : Type} (PartsGroup : List (String × H5PartGroup K)) :
    List BlockNumber → List (Option (DensityMatrixPart K)) →
      Except Exception Unit × List (Option (DensityMatrixPart K))
  | [], parts => (.ok (), parts)
  | n :: rest, parts =>
    match openGroup PartsGroup (toString n) with
    | none => (.error Exception.h5GroupIException, parts)
    | some PartGroup =>
      match parts.get? n with
      | none => (.error Exception.outOfRange, parts)
      | some none => (.error Exception.nullDereference, parts)
      | some (some part) =>
        DensityMatrix.loadLoop PartsGroup rest (parts.set n (some (part.load PartGroup)))

/-- Method `DensityMatrix::load` (DensityMatrix.cpp:135-154). The result is the outcome of the
call and the object as the call leaves it. -/
def DensityMatrix.load {K : Type} [DecidableEq K] (self : DensityMatrix K)
    (RootGroup : CommonFG K) : Except Exception Unit × DensityMatrix K :=
  match RootGroup with
  | none => (.error Exception.h5GroupIException, self)
  | some DMRootGroup =>
    let newBeta := DMRootGroup.beta
    if newBeta ≠ self.beta then (.error Exception.h5DataSetIException, self)
    else
      let NumOfBlocks : BlockNumber := self.parts.length
      if NumOfBlocks ≠ DMRootGroup.parts.length then (.error Exception.h5GroupIException, self)
      else
        let r := DensityMatrix.loadLoop DMRootGroup.parts (List.range NumOfBlocks) self.parts
        (r.1, { self with parts := r.2 })

/-- One call made by `DensityMatrix::compute` on a part: `computeUnnormalized()` of part `n` with
the value it returned, or `normalize(Z)` of part `n` with its argument. -/
inductive PartCall (K : Type) where
  | computeUnnormalized (n : BlockNumber) (result : K)
  | normalize (n : BlockNumber) (Z : K)

/-- First loop of `DensityMatrix::compute` with the calls it makes, in order; `n` is the position
of the iterator. -/
def DensityMatrix.computeUnnormalizedLoopTrace {K : Type} [Field K] (expf : K → K) :
    List (Option (DensityMatrixPart K)) → BlockNumber → K →
      Except Exception (List (Option (DensityMatrixPart K)) × K × List (PartCall K))
  | [], _, Z => .ok ([], Z, [])
  | none :: _, _, _ => .error Exception.nullDereference
  | some p :: rest, n, Z =>
    match DensityMatrix.computeUnnormalizedLoopTrace expf rest (n + 1)
        (Z + (p.computeUnnormalized expf).2) with
    | .error e => .error e
    | .ok r =>
      .ok (some (p.computeUnnormalized expf).1 :: r.1, r.2.1,
        PartCall.computeUnnormalized n (p.computeUnnormalized expf).2 :: r.2.2)

/-- Second loop of `DensityMatrix::compute` with the calls it makes, in order. -/
def DensityMatrix.normalizeLoopTrace {K : Type} [Field K] (Z : K) :
    List (Option (DensityMatrixPart K)) → BlockNumber →
      Except Exception (List (Option (DensityMatrixPart K)) × List (PartCall K))
  | [], _ => .ok ([], [])
  | none :: _, _ => .error Exception.nullDereference
  | some p :: rest, n =>
    match DensityMatrix.normalizeLoopTrace Z rest (n + 1) with
    | .error e => .error e
    | .ok r => .ok (some (p.normalize Z) :: r.1, PartCall.normalize n Z :: r.2)

/-- Method `DensityMatrix::compute` (DensityMatrix.cpp:54-67) together with the sequence of calls
it makes on the parts. -/
def DensityMatrix.computeTrace {K : Type} [Field K] (expf : K → K) (self : DensityMatrix K) :
    Except Exception (DensityMatrix K × List (PartCall K)) :=
  if self.Status ≥ ObjectStatus.Computed then .ok (self, [])
  else
    match DensityMatrix.computeUnnormalizedLoopTrace expf self.parts 0 0 with
    | .error e => .error e
    | .ok r =>
      match DensityMatrix.normalizeLoopTrace r.2.1 r.1 0 with
      | .error e => .error e
      | .ok r2 =>
        .ok ({ self with parts := r2.1, Status := ObjectStatus.Computed }, r.2.2 ++ r2.2)

/-- The operations of a `DensityMatrix`. -/
inductive Operation (K : Type) where
  | prepare
  | compute
  | save (RootGroup : CommonFG K)
  | load (RootGroup : CommonFG K)
  | getWeight (state : QuantumState)
  | getAverageEnergy
  | getAverageOccupancy
  | getAverageDoubleOccupancy (i j : ParticleIndex)

/-- State of a `const` method after the call: the object itself, unless the call ran into
undefined behaviour. -/
def stateAfterConst {K α : Type} (self : DensityMatrix K) (outcome : Except Exception α) :
    Option (DensityMatrix K) :=
  match outcome with
  | .ok _ => some self
  | .error e => if e.isUndefined then none else some self

/-- The object after one operation, whether the operation returns or throws; `none` when the
operation runs into undefined behaviour (a null part pointer or an index outside a vector). -/
def DensityMatrix.stateAfter {K : Type} [Field K] [DecidableEq K] (expf : K → K)
    (partAverageOccupancy : DensityMatrixPart K → K)
    (partAverageDoubleOccupancy : DensityMatrixPart K → ParticleIndex → ParticleIndex → K)
    (self : DensityMatrix K) : Operation K → Option (DensityMatrix K)
  | .prepare => some self.prepare
  | .compute =>
    match self.compute expf with
    | .ok d => some d
    | .error _ => none
  | .save RootGroup => stateAfterConst self (self.save RootGroup)
  | .load RootGroup =>
    match (self.load RootGroup).1 with
    | .ok _ => some (self.load RootGroup).2
    | .error e => if e.isUndefined then none else some (self.load RootGroup).2
  | .getWeight state => stateAfterConst self (self.getWeight state)
  | .getAverageEnergy => stateAfterConst self self.getAverageEnergy
  | .getAverageOccupancy => stateAfterConst self (self.getAverageOccupancy partAverageOccupancy)
  | .getAverageDoubleOccupancy i j =>
    stateAfterConst self (self.getAverageDoubleOccupancy partAverageDoubleOccupancy i j)

/-- The object after a sequence of operations, `none` as soon as one of them is undefined. -/
def DensityMatrix.run {K : Type} [Field K] [DecidableEq K] (expf : K → K)
    (partAverageOccupancy : DensityMatrixPart K → K)
    (partAverageDoubleOccupancy : DensityMatrixPart K → ParticleIndex → ParticleIndex → K) :
    List (Operation K) → DensityMatrix K → Option (DensityMatrix K)
  | [], d => some d
  | op :: ops, d =>
    match d.stateAfter expf partAverageOccupancy partAverageDoubleOccupancy op with
    | none => none
    | some d1 => DensityMatrix.run expf partAverageOccupancy partAverageDoubleOccupancy ops d1

/-- The weight that `getWeight(state)` returns on the instance constructed over `S`, `H` and
`beta`, prepared and computed; 0 when one of the calls fails. -/
def DensityMatrix.computedWeight {K : Type} [Field K] (expf : K → K) (S : StatesClassification)
    (H : Hamiltonian K) (beta : K) (state : QuantumState) : K :=
  match (DensityMatrix.new S H beta).prepare.compute expf with
  | .error _ => 0
  | .ok d =>
    match d.getWeight state with
    | .error _ => 0
    | .ok w => w

/-- Number of states, over the first `S.NumberOfBlocks()` blocks, whose eigenvalue equals the
ground energy `H.getGroundEnergy()`: the degeneracy of the ground state. -/
def Hamiltonian.groundStateDegeneracy {K : Type} [DecidableEq K] (H : Hamiltonian K)
    (S : StatesClassification) : Nat :=
  ((List.range S.NumberOfBlocks).map
    (fun n => (H.getPart n).eigenvalues.countP (fun E => decide (E = H.getGroundEnergy)))).sum

/-! ## Auxiliary lemmas: operator presets -/

open OperatorPresets


theorem FockState.set_set_self (s : FockState) (i : Nat) (h : s.test i = true) :
    (s.set i false).set i true = s := by
  cases s with
  | mk bits =>
    simp only [FockState.set, FockState.test] at *
    congr 1
    rw [List.set_set]
    apply List.ext_getElem?
    intro n
    by_cases hn : i = n
    · subst hn
      by_cases hl : i < bits.length
      · simp [List.getD_eq_getElem?_getD, hl] at h
        simp [hl, h]
      · have hl2 : bits.length ≤ i := by omega
        simp [List.getD_eq_getElem?_getD, List.getElem?_eq_none hl2] at h
    · simp [List.getElem?_set_ne hn]

theorem take_set_count (bits : List Bool) (i : Nat) (b : Bool) :
    ((bits.set i b).take i).count true = (bits.take i).count true := by
  congr 1
  apply List.ext_getElem?
  intro n
  by_cases hn : n < i
  · simp [List.getElem?_take, hn, List.getElem?_set_ne (Nat.ne_of_gt hn)]
  · simp [List.getElem?_take, hn]

theorem numberTerm_actRight (c : ℚ) (i : Nat) (ket : FockState) :
    Term.actRight (c, [(true, i), (false, i)]) ket = if ket.test i then some (ket, c) else none := by
  by_cases hlen : ket.bits.length ≤ i
  · have ht : ket.test i = false := by
      simp [FockState.test, List.getD_eq_getElem?_getD, List.getElem?_eq_none hlen]
    simp [Term.actRight, ElemOp.act, hlen, ht]
  · cases ht : ket.test i with
    | false => simp [Term.actRight, ElemOp.act, hlen, ht]
    | true =>
      have hlt : i < ket.bits.length := by omega
      have h2 : (ket.set i false).test i = false := by
        simp [FockState.test, FockState.set, List.getD_eq_getElem?_getD, hlt]
      have h3 : (ket.set i false).bits.length = ket.bits.length := by
        simp [FockState.set]
      have h4 : ((ket.set i false).bits.take i).count true = (ket.bits.take i).count true := by
        simp only [FockState.set]
        exact take_set_count _ _ _
      simp [Term.actRight, ElemOp.act, hlen, ht, h2, h3, h4, FockState.set_set_self ket i ht]
      rw [← mul_pow]
      norm_num

theorem foldl_push_eq_map {α β : Type} (f : α → β) (l : List α) (init : List β) :
    l.foldl (fun acc x => acc ++ [f x]) init = init ++ l.map f := by
  induction l generalizing init with
  | nil => simp
  | cons a l ih => simp [ih]

theorem N_new_Terms (Nmodes : Nat) :
    (N.new Nmodes).Terms =
      (List.range Nmodes).map (fun index => ((1 : MelemType), [(true, index), (false, index)])) := by
  simp only [N.new]
  rw [foldl_push_eq_map (fun index => ((1 : MelemType), [(true, index), (false, index)]))]
  simp

/-- Diagonal contribution of one term -/
theorem actRight_diag_aux (ket : FockState) (Terms : List Term)
    (h : ∀ t ∈ Terms, ∀ r, Term.actRight t ket = some r → r.1 = ket)
    (output : FockMap) (acc : ℚ) (hout : (output = [] ∧ acc = 0) ∨ output = [(ket, acc)]) :
    (match FockMap.find (Terms.foldl
        (fun output t =>
          match Term.actRight t ket with
          | none => output
          | some r => FockMap.accumulate output r.1 r.2) output) ket with
      | none => 0
      | some c => c)
    = acc + (Terms.map (fun t => match Term.actRight t ket with
        | none => (0 : ℚ)
        | some r => r.2)).sum := by
  induction Terms generalizing output acc with
  | nil =>
    rcases hout with ⟨h1, h2⟩ | h1
    · subst h1; subst h2; simp [FockMap.find]
    · subst h1; simp [FockMap.find]
  | cons t rest ih =>
    have hrest : ∀ t ∈ rest, ∀ r, Term.actRight t ket = some r → r.1 = ket :=
      fun t ht => h t (List.mem_cons_of_mem _ ht)
    simp only [List.foldl_cons, List.map_cons, List.sum_cons]
    cases hact : Term.actRight t ket with
    | none =>
      simp only []
      rw [ih hrest output acc hout]
      simp
    | some r =>
      have hr : r.1 = ket := h t (List.mem_cons_self _ _) r hact
      simp only []
      rcases hout with ⟨h1, h2⟩ | h1
      · subst h1; subst h2
        rw [ih hrest _ r.2 (Or.inr (by simp [FockMap.accumulate, hr]))]
        ring
      · subst h1
        rw [ih hrest _ (acc + r.2) (Or.inr (by simp [FockMap.accumulate, hr]))]
        ring

theorem getMatrixElement_diag (ket : FockState) (Terms : List Term)
    (h : ∀ t ∈ Terms, ∀ r, Term.actRight t ket = some r → r.1 = ket) :
    Operator.getMatrixElement Terms ket ket =
      (Terms.map (fun t => match Term.actRight t ket with
        | none => (0 : ℚ)
        | some r => r.2)).sum := by
  have := actRight_diag_aux ket Terms h [] 0 (Or.inl ⟨rfl, rfl⟩)
  simp only [zero_add] at this
  exact this

theorem sum_test_range (l : List Bool) (n : Nat) :
    ((List.range n).map (fun i => if l.getD i false then (1 : ℚ) else 0)).sum
      = ((l.take n).count true : ℚ) := by
  induction n with
  | zero => simp
  | succ n ih =>
    rw [List.range_succ, List.map_append, List.sum_append, ih, List.take_succ, List.count_append]
    by_cases hn : n < l.length
    · cases hb : l[n] <;> simp [List.getD_eq_getElem?_getD, hn, hb]
    · have hn2 : l.length ≤ n := by omega
      simp [List.getD_eq_getElem?_getD, List.getElem?_eq_none hn2]

theorem N_generic (Nmodes : Nat) (ket : FockState) :
    Operator.getMatrixElement (N.new Nmodes).Terms ket ket
      = ((ket.bits.take Nmodes).count true : ℚ) := by
  rw [getMatrixElement_diag]
  · rw [N_new_Terms, List.map_map, ← sum_test_range]
    congr 1
    apply List.map_congr_left
    intro i _
    simp only [Function.comp, numberTerm_actRight, FockState.test]
    by_cases hb : ket.bits.getD i false = true
    · rw [if_pos hb, if_pos hb]
    · rw [if_neg hb, if_neg hb]
  · intro t ht r hr
    rw [N_new_Terms] at ht
    obtain ⟨i, _, rfl⟩ := List.mem_map.1 ht
    rw [numberTerm_actRight] at hr
    split at hr
    · cases hr; rfl
    · cases hr

theorem count_drop_eq_zero (l : List Bool) (n : Nat) :
    (l.drop n).count true = 0 ↔ ∀ i, n ≤ i → l.getD i false = false := by
  rw [List.count_eq_zero]
  constructor
  · intro h i hi
    by_cases hl : i < l.length
    · cases hb : l[i] with
      | false => simp [List.getD_eq_getElem?_getD, hl, hb]
      | true =>
        exfalso; apply h
        rw [List.mem_iff_getElem]
        refine ⟨i - n, ?_, ?_⟩
        · simp; omega
        · simp [List.getElem_drop]
          have : n + (i - n) = i := by omega
          simp [this, hb]
    · have hl2 : l.length ≤ i := by omega
      simp [List.getD_eq_getElem?_getD, List.getElem?_eq_none hl2]
  · intro h hmem
    rw [List.mem_iff_getElem] at hmem
    obtain ⟨j, hj, hjt⟩ := hmem
    have hj2 : n + j < l.length := by simp at hj; omega
    have := h (n + j) (by omega)
    simp [List.getD_eq_getElem?_getD, hj2] at this
    simp [List.getElem_drop] at hjt
    rw [this] at hjt
    cases hjt

theorem generateTermsLoop_some (up down : List ParticleIndex) (hlen : up.length = down.length)
    (hL : up.length < ParticleIndexModulus) :
    ∀ (k fuel i : Nat) (T : List Term), i + k = up.length → k < fuel →
      Sz.generateTermsLoop up down fuel i T = some (T ++ Sz.termPairs (up.drop i) (down.drop i)) := by
  intro k
  induction k with
  | zero =>
    intro fuel i T hi hf
    obtain ⟨f, rfl⟩ : ∃ f, fuel = f + 1 := ⟨fuel - 1, by omega⟩
    have h1 : ¬ i < up.length := by omega
    have h2 : up.drop i = [] := List.drop_eq_nil_of_le (by omega)
    simp [Sz.generateTermsLoop, h1, h2, Sz.termPairs]
  | succ k ih =>
    intro fuel i T hi hf
    obtain ⟨f, rfl⟩ : ∃ f, fuel = f + 1 := ⟨fuel - 1, by omega⟩
    have h1 : i < up.length := by omega
    have h1d : i < down.length := by omega
    have hmod : (i + 1) % ParticleIndexModulus = i + 1 := Nat.mod_eq_of_lt (by omega)
    have hu : up.drop i = up[i] :: up.drop (i + 1) := List.drop_eq_getElem_cons h1
    have hd : down.drop i = down[i] :: down.drop (i + 1) := List.drop_eq_getElem_cons h1d
    simp only [Sz.generateTermsLoop, h1, if_true, hmod]
    rw [ih f (i + 1) _ (by omega) (by omega), hu, hd]
    simp [Sz.termPairs, List.getD_eq_getElem?_getD, h1, h1d]

theorem generateTermsLoop_result (up down : List ParticleIndex) (hlen : up.length = down.length) :
    ∀ (fuel i : Nat) (T T' : List Term), i < ParticleIndexModulus → i ≤ up.length →
      Sz.generateTermsLoop up down fuel i T = some T' →
      up.length < ParticleIndexModulus ∧ T' = T ++ Sz.termPairs (up.drop i) (down.drop i) := by
  intro fuel
  induction fuel with
  | zero => intro i T T' _ _ h; simp [Sz.generateTermsLoop] at h
  | succ f ih =>
    intro i T T' hi hiL h
    by_cases h1 : i < up.length
    · have h1d : i < down.length := by omega
      simp only [Sz.generateTermsLoop, h1, if_true] at h
      have hmlt : (i + 1) % ParticleIndexModulus < ParticleIndexModulus :=
        Nat.mod_lt _ (by decide)
      by_cases hw : i + 1 < ParticleIndexModulus
      · have hmod : (i + 1) % ParticleIndexModulus = i + 1 := Nat.mod_eq_of_lt hw
        rw [hmod] at h
        obtain ⟨hL, hT⟩ := ih (i + 1) _ T' hw (by omega) h
        refine ⟨hL, ?_⟩
        have hu : up.drop i = up[i] :: up.drop (i + 1) := List.drop_eq_getElem_cons h1
        have hd : down.drop i = down[i] :: down.drop (i + 1) := List.drop_eq_getElem_cons h1d
        rw [hT, hu, hd]
        simp [Sz.termPairs, List.getD_eq_getElem?_getD, h1, h1d]
      · have hi2 : i + 1 = ParticleIndexModulus := by omega
        have hmod : (i + 1) % ParticleIndexModulus = 0 := by rw [hi2]; exact Nat.mod_self _
        rw [hmod] at h
        obtain ⟨hL, _⟩ := ih 0 _ T' (by decide) (by omega) h
        omega
    · have h2 : up.drop i = [] := List.drop_eq_nil_of_le (by omega)
      simp only [Sz.generateTermsLoop, h1, if_false, Option.some.injEq] at h
      refine ⟨by omega, ?_⟩
      simp [h2, Sz.termPairs, h]

theorem Sz_new_ok (fuel : Nat) (up down : List ParticleIndex) (sz : Sz)
    (h : Sz.new fuel up down = some (.ok sz)) :
    up.length = down.length ∧ up.length < ParticleIndexModulus ∧
      sz.Terms = Sz.termPairs up down ∧ sz.SpinUpIndices = up ∧ sz.SpinDownIndices = down := by
  unfold Sz.new at h
  by_cases hlen : up.length = down.length
  · simp only [hlen, ne_eq, not_true_eq_false, if_false, Sz.generateTerms, Option.map_map] at h
    cases hloop : Sz.generateTermsLoop up down fuel 0 [] with
    | none => simp [hloop] at h
    | some T =>
      simp only [hloop, Option.map_some', Function.comp, Option.some.injEq, Except.ok.injEq] at h
      obtain ⟨hL, hT⟩ := generateTermsLoop_result up down hlen fuel 0 [] T (by decide)
        (Nat.zero_le _) hloop
      subst h
      simp at hT
      exact ⟨hlen, hL, hT, rfl, rfl⟩
  · simp [hlen] at h

theorem Sz_new_none_of_long (fuel : Nat) (up down : List ParticleIndex)
    (hlen : up.length = down.length) (hL : ParticleIndexModulus ≤ up.length) :
    Sz.new fuel up down = none := by
  cases h : Sz.new fuel up down with
  | none => rfl
  | some r =>
    cases r with
    | error e =>
      exfalso
      simp [Sz.new, hlen, Sz.generateTerms] at h
    | ok sz =>
      exfalso
      obtain ⟨_, hL2, _⟩ := Sz_new_ok fuel _ _ sz h
      omega

theorem Sz_new_succeeds (fuel : Nat) (up down : List ParticleIndex)
    (hlen : up.length = down.length) (hL : up.length < ParticleIndexModulus)
    (hfuel : up.length < fuel) :
    Sz.new fuel up down = some (.ok
      { Terms := Sz.termPairs up down
        Nmodes := (up.length + down.length) % ParticleIndexModulus
        SpinUpIndices := up
        SpinDownIndices := down }) := by
  unfold Sz.new
  simp only [hlen, ne_eq, not_true_eq_false, if_false, Sz.generateTerms]
  rw [generateTermsLoop_some up down hlen hL up.length fuel 0 [] (by omega) hfuel]
  simp

theorem termPairs_length (up down : List ParticleIndex) (hlen : up.length = down.length) :
    (Sz.termPairs up down).length = 2 * up.length := by
  induction up generalizing down with
  | nil => simp [Sz.termPairs]
  | cons u us ih =>
    cases down with
    | nil => simp at hlen
    | cons d ds =>
      simp only [List.length_cons, Nat.add_right_cancel_iff] at hlen
      simp [Sz.termPairs, ih ds hlen]
      omega

theorem foldl_test_count (ket : FockState) (l : List ParticleIndex) (acc : Int) :
    l.foldl (fun acc it => acc + (if ket.test it then 1 else 0)) acc
      = acc + (l.countP (fun it => ket.test it) : Int) := by
  induction l generalizing acc with
  | nil => simp
  | cons a l ih =>
    simp only [List.foldl_cons, ih, List.countP_cons]
    by_cases h : ket.test a = true
    · simp [h]; ring
    · simp [h]

theorem Sz_getMatrixElement_eq (sz : Sz) (ket : FockState) :
    sz.getMatrixElement ket = (1 / 2 : ℚ) *
      (((sz.SpinUpIndices.countP (fun it => ket.test it) : Nat) : ℚ)
        - ((sz.SpinDownIndices.countP (fun it => ket.test it) : Nat) : ℚ)) := by
  simp only [Sz.getMatrixElement, foldl_test_count]
  push_cast
  ring

theorem termPairs_sum (ket : FockState) (up down : List ParticleIndex)
    (hlen : up.length = down.length) :
    ((Sz.termPairs up down).map (fun t => match Term.actRight t ket with
        | none => (0 : ℚ)
        | some r => r.2)).sum
      = (1 / 2 : ℚ) * (((up.countP (fun it => ket.test it) : Nat) : ℚ)
        - ((down.countP (fun it => ket.test it) : Nat) : ℚ)) := by
  induction up generalizing down with
  | nil =>
    cases down with
    | nil => simp [Sz.termPairs]
    | cons d ds => simp at hlen
  | cons u us ih =>
    cases down with
    | nil => simp at hlen
    | cons d ds =>
      simp only [List.length_cons, Nat.add_right_cancel_iff] at hlen
      simp only [Sz.termPairs, List.map_cons, List.sum_cons, ih ds hlen, numberTerm_actRight,
        List.countP_cons]
      by_cases hu : ket.test u = true <;> by_cases hd : ket.test d = true <;>
        simp [hu, hd] <;> ring

theorem termPairs_diag (ket : FockState) (up down : List ParticleIndex) :
    ∀ t ∈ Sz.termPairs up down, ∀ r, Term.actRight t ket = some r → r.1 = ket := by
  induction up generalizing down with
  | nil => intro t ht; simp [Sz.termPairs] at ht
  | cons u us ih =>
    cases down with
    | nil => intro t ht; simp [Sz.termPairs] at ht
    | cons d ds =>
      intro t ht r hr
      simp only [Sz.termPairs, List.mem_cons] at ht
      rcases ht with rfl | rfl | ht
      · rw [numberTerm_actRight] at hr
        split at hr
        · cases hr; rfl
        · cases hr
      · rw [numberTerm_actRight] at hr
        split at hr
        · cases hr; rfl
        · cases hr
      · exact ih ds t ht r hr


/-! ## Auxiliary lemmas: density matrix -/

theorem status_ge_prepared_iff (st : ObjectStatus) :
    st ≥ ObjectStatus.Prepared ↔ st ≠ ObjectStatus.Constructed := by
  cases st <;> decide

theorem status_ge_computed_iff (st : ObjectStatus) :
    st ≥ ObjectStatus.Computed ↔ st = ObjectStatus.Computed := by
  cases st <;> decide

theorem status_lt_computed_iff (st : ObjectStatus) :
    st < ObjectStatus.Computed ↔ st ≠ ObjectStatus.Computed := by
  cases st <;> decide

theorem foldl_set_getElem? {α : Type} (g : Nat → α) (l : List α) :
    ∀ k m : Nat, k ≤ l.length →
      ((List.range k).foldl (fun parts n => parts.set n (g n)) l)[m]?
        = if m < k then some (g m) else l[m]? := by
  intro k
  induction k with
  | zero => intro m _; simp
  | succ k ih =>
    intro m hk
    have hlen : ((List.range k).foldl (fun parts n => parts.set n (g n)) l).length = l.length := by
      clear ih
      induction k with
      | zero => simp
      | succ j ihj =>
        rw [List.range_succ, List.foldl_append]
        simp only [List.foldl_cons, List.foldl_nil, List.length_set]
        exact ihj (by omega)
    rw [List.range_succ, List.foldl_append]
    simp only [List.foldl_cons, List.foldl_nil]
    by_cases hmk : k = m
    · subst hmk
      rw [List.getElem?_set_self (by omega)]
      simp
    · rw [List.getElem?_set_ne hmk, ih m (by omega)]
      by_cases h1 : m < k
      · simp [h1, Nat.lt_succ_of_lt h1]
      · have h2 : ¬ m < k + 1 := by omega
        simp [h1, h2]

theorem foldl_set_eq_map {α : Type} (g : Nat → α) (l : List α) :
    (List.range l.length).foldl (fun parts n => parts.set n (g n)) l
      = (List.range l.length).map g := by
  apply List.ext_getElem?
  intro m
  rw [foldl_set_getElem? g l l.length m (Nat.le_refl _)]
  by_cases h : m < l.length
  · simp [h]
  · have h2 : l.length ≤ m := by omega
    rw [if_neg h, List.getElem?_eq_none h2, List.getElem?_eq_none (by simpa using h2)]

theorem prepare_new {K : Type} [Field K] (S : StatesClassification) (H : Hamiltonian K) (beta : K) :
    (DensityMatrix.new S H beta).prepare =
      { beta := beta
        Status := ObjectStatus.Prepared
        S := S
        H := H
        parts := (List.range S.NumberOfBlocks).map
          (fun n => some (DensityMatrixPart.new (H.getPart n) beta H.getGroundEnergy)) } := by
  have hns : ¬ (ObjectStatus.Constructed ≥ ObjectStatus.Prepared) := by decide
  simp only [DensityMatrix.prepare, DensityMatrix.new, hns, if_false, List.length_replicate]
  have := foldl_set_eq_map
    (fun n => some (DensityMatrixPart.new (H.getPart n) beta H.getGroundEnergy))
    (List.replicate S.NumberOfBlocks (none : Option (DensityMatrixPart K)))
  simp only [List.length_replicate] at this
  rw [this]

theorem computeUnnormalizedLoop_some {K : Type} [Field K] (expf : K → K)
    (ps : List (DensityMatrixPart K)) (Z : K) :
    DensityMatrix.computeUnnormalizedLoop expf (ps.map some) Z =
      .ok (ps.map (fun p => some (p.computeUnnormalized expf).1),
        Z + (ps.map (fun p => (p.computeUnnormalized expf).2)).sum) := by
  induction ps generalizing Z with
  | nil => simp [DensityMatrix.computeUnnormalizedLoop]
  | cons p ps ih =>
    simp only [List.map_cons, DensityMatrix.computeUnnormalizedLoop, ih, List.sum_cons]
    rw [add_assoc]

theorem normalizeLoop_some {K : Type} [Field K] (Z : K) (ps : List (DensityMatrixPart K)) :
    DensityMatrix.normalizeLoop Z (ps.map some) = .ok (ps.map (fun p => some (p.normalize Z))) := by
  induction ps with
  | nil => simp [DensityMatrix.normalizeLoop]
  | cons p ps ih => simp only [List.map_cons, DensityMatrix.normalizeLoop, ih]

theorem sum_map_div {K : Type} [Field K] (l : List K) (Z : K) :
    (l.map (fun w => w / Z)).sum = l.sum / Z := by
  induction l with
  | nil => simp
  | cons a l ih => simp [ih, add_div]

/-- The partition function accumulated by `compute` over a list of allocated parts. -/
theorem compute_of_allocated {K : Type} [Field K] (expf : K → K) (d : DensityMatrix K)
    (ps : List (DensityMatrixPart K)) (hparts : d.parts = ps.map some)
    (hst : d.Status ≠ ObjectStatus.Computed) :
    DensityMatrix.compute expf d = .ok
      { d with
        parts := ps.map (fun p => some ((p.computeUnnormalized expf).1.normalize
          (0 + (ps.map (fun p => (p.computeUnnormalized expf).2)).sum)))
        Status := ObjectStatus.Computed } := by
  have hns : ¬ (d.Status ≥ ObjectStatus.Computed) := by
    rw [status_ge_computed_iff]; exact hst
  simp only [DensityMatrix.compute, hns, if_false, hparts, computeUnnormalizedLoop_some]
  have hnorm : ∀ Z : K,
      DensityMatrix.normalizeLoop Z (ps.map (fun p => some (p.computeUnnormalized expf).1))
        = .ok (ps.map (fun p => some ((p.computeUnnormalized expf).1.normalize Z))) := by
    intro Z
    have h := normalizeLoop_some Z (ps.map (fun p => (p.computeUnnormalized expf).1))
    rw [List.map_map, List.map_map] at h
    exact h
  rw [hnorm]

theorem totalWeight_normalized {K : Type} [Field K] (expf : K → K) (d : DensityMatrix K)
    (ps : List (DensityMatrixPart K)) (Z : K) (hZ : Z ≠ 0)
    (hsum : (ps.map (fun p => (p.computeUnnormalized expf).2)).sum = Z)
    (hparts : d.parts = ps.map (fun p => some ((p.computeUnnormalized expf).1.normalize Z))) :
    d.totalWeight = 1 := by
  have key : ∀ qs : List (DensityMatrixPart K),
      ((qs.map (fun p => some ((p.computeUnnormalized expf).1.normalize Z))).map (fun p =>
        match p with
        | none => (0 : K)
        | some part => part.weights.sum)).sum
      = (qs.map (fun p => (p.computeUnnormalized expf).2)).sum / Z := by
    intro qs
    induction qs with
    | nil => simp
    | cons q qs ih =>
      simp only [List.map_cons, List.sum_cons, ih, add_div]
      congr 1
      simp only [DensityMatrixPart.normalize, DensityMatrixPart.computeUnnormalized, sum_map_div]
  rw [DensityMatrix.totalWeight, hparts, key ps, hsum, div_self hZ]

theorem sumOverParts_ne_exStatusMismatch {K : Type} [Field K] (value : DensityMatrixPart K → K)
    (parts : List (Option (DensityMatrixPart K))) (acc : K) :
    DensityMatrix.sumOverParts value parts acc ≠ .error Exception.exStatusMismatch := by
  induction parts generalizing acc with
  | nil => simp [DensityMatrix.sumOverParts]
  | cons p rest ih =>
    cases p with
    | none => simp [DensityMatrix.sumOverParts]
    | some p => simp only [DensityMatrix.sumOverParts]; exact ih _

theorem compute_ok_status {K : Type} [Field K] (expf : K → K) (d d' : DensityMatrix K)
    (h : d.compute expf = .ok d') : d'.Status = ObjectStatus.Computed := by
  unfold DensityMatrix.compute at h
  by_cases hs : d.Status ≥ ObjectStatus.Computed
  · simp only [hs, if_true, Except.ok.injEq] at h
    rw [← h]
    exact (status_ge_computed_iff _).1 hs
  · simp only [hs, if_false] at h
    cases h1 : DensityMatrix.computeUnnormalizedLoop expf d.parts 0 with
    | error e => simp [h1] at h
    | ok r =>
      simp only [h1] at h
      cases h2 : DensityMatrix.normalizeLoop r.2 r.1 with
      | error e => simp [h2] at h
      | ok parts =>
        simp only [h2, Except.ok.injEq] at h
        rw [← h]

theorem unnormalized_sum_pos (ps : List (DensityMatrixPart ℝ)) (hps : ps ≠ [])
    (hne : ∀ p ∈ ps, p.eigenvalues ≠ []) :
    0 < (ps.map (fun p => (p.computeUnnormalized Real.exp).2)).sum := by
  apply List.sum_pos
  · intro x hx
    obtain ⟨p, hp, rfl⟩ := List.mem_map.1 hx
    simp only [DensityMatrixPart.computeUnnormalized]
    apply List.sum_pos
    · intro y hy
      obtain ⟨E, _, rfl⟩ := List.mem_map.1 hy
      exact Real.exp_pos _
    · simpa using hne p hp
  · simpa using hps

/-! ## Claims -/

/-- C1: for a density matrix built by the constructor over at least one block, every block
non-empty, and a positive `beta`, `prepare()` followed by `compute()` returns, leaves the status
`Computed`, and the stored weights of all parts sum to exactly one over the reals. -/
theorem compute_totalWeight_eq_one (S : StatesClassification) (H : Hamiltonian ℝ) (beta : ℝ)
    (hblocks : 0 < S.NumberOfBlocks)
    (hne : ∀ n, n < S.NumberOfBlocks → (H.getPart n).eigenvalues ≠ [])
    (_hbeta : 0 < beta) :
    ∃ d, DensityMatrix.compute Real.exp (DensityMatrix.new S H beta).prepare = .ok d ∧
      d.Status = ObjectStatus.Computed ∧ d.totalWeight = 1 := by
  have hparts : (DensityMatrix.new S H beta).prepare.parts =
      ((List.range S.NumberOfBlocks).map
        (fun n => DensityMatrixPart.new (H.getPart n) beta H.getGroundEnergy)).map some := by
    rw [prepare_new, List.map_map]
    rfl
  have hst : (DensityMatrix.new S H beta).prepare.Status ≠ ObjectStatus.Computed := by
    rw [prepare_new]; intro h; cases h
  refine ⟨_, compute_of_allocated Real.exp _ _ hparts hst, rfl, ?_⟩
  have hpos := unnormalized_sum_pos
    ((List.range S.NumberOfBlocks).map
      (fun n => DensityMatrixPart.new (H.getPart n) beta H.getGroundEnergy))
    (by
      intro h
      have hl := congrArg List.length h
      simp only [List.length_map, List.length_range, List.length_nil] at hl
      exact Nat.ne_of_gt hblocks hl)
    (by
      intro p hp
      obtain ⟨n, hn, rfl⟩ := List.mem_map.1 hp
      exact hne n (List.mem_range.1 hn))
  exact totalWeight_normalized Real.exp _ _ _ (by rw [zero_add]; exact ne_of_gt hpos)
    (by rw [zero_add]) rfl

/-- Witness of C1: one block with the two eigenvalues 0 and 1, ground energy 0, `beta = 1`. -/
theorem compute_totalWeight_eq_one_witness :
    ∃ d, DensityMatrix.compute Real.exp
        (DensityMatrix.new ⟨1, fun _ => 0, fun q => q⟩ ⟨fun _ => ⟨[0, 1]⟩, (0 : ℝ)⟩ 1).prepare
          = .ok d ∧
      d.Status = ObjectStatus.Computed ∧ d.totalWeight = 1 :=
  compute_totalWeight_eq_one ⟨1, fun _ => 0, fun q => q⟩ ⟨fun _ => ⟨[0, 1]⟩, (0 : ℝ)⟩ 1
    (by decide) (by intro n _; simp) (by norm_num)

/-- C2: the preset `N` is diagonal with value the population count. For every `Nmodes`, `bra` and
`ket`, `getMatrixElement(ket)` is the number of set bits of `ket`, and `getMatrixElement(bra, ket)`
is that number when `bra == ket` and 0 otherwise; on a 2-mode space the states `{0,1}`, `{1,1}`,
`{0,0}` give 1, 2, 0. -/
theorem N_getMatrixElement_popcount (Nmodes : ParticleIndex) (bra ket : FockState) :
    (N.new Nmodes).getMatrixElement ket = ((ket.bits.count true : Nat) : ℚ) ∧
    (N.new Nmodes).getMatrixElementBraKet bra ket
      = (if bra = ket then ((ket.bits.count true : Nat) : ℚ) else 0) ∧
    (N.new 2).getMatrixElement ⟨[false, true]⟩ = 1 ∧
    (N.new 2).getMatrixElement ⟨[true, true]⟩ = 2 ∧
    (N.new 2).getMatrixElement ⟨[false, false]⟩ = 0 := by
  refine ⟨rfl, ?_, ?_, ?_, ?_⟩
  · by_cases h : bra = ket
    · simp [N.getMatrixElementBraKet, N.getMatrixElement, FockState.count, h]
    · simp [N.getMatrixElementBraKet, h]
  · simp [N.getMatrixElement, FockState.count]
  · simp [N.getMatrixElement, FockState.count]
  · simp [N.getMatrixElement, FockState.count]

/-- C3, as stated, fails: `N(1)` on the two-mode state `{1,1}` has closed-form matrix element 2,
while its single term `creation(0)*annihilation(0)` contributes 1. -/
theorem N_closed_form_ne_generic :
    (N.new 1).getMatrixElement ⟨[true, true]⟩ = 2 ∧
    Operator.getMatrixElement (N.new 1).Terms ⟨[true, true]⟩ ⟨[true, true]⟩ = 1 ∧
    (N.new 1).getMatrixElement ⟨[true, true]⟩
      ≠ Operator.getMatrixElement (N.new 1).Terms ⟨[true, true]⟩ ⟨[true, true]⟩ := by
  have h1 : (N.new 1).getMatrixElement ⟨[true, true]⟩ = 2 := by
    simp [N.getMatrixElement, FockState.count]
  have h2 : Operator.getMatrixElement (N.new 1).Terms ⟨[true, true]⟩ ⟨[true, true]⟩ = 1 := by
    rw [N_generic]; simp
  refine ⟨h1, h2, ?_⟩
  rw [h1, h2]
  norm_num

/-- C3, amended: the closed form `ket.count()` of `N(Nmodes)` equals the diagonal matrix element
obtained from the terms built by the constructor exactly when `ket` has no occupied mode of index
`Nmodes` or above, in particular for every state of the `Nmodes`-mode space. -/
theorem N_closed_form_eq_generic_iff (Nmodes : ParticleIndex) (ket : FockState) :
    (N.new Nmodes).getMatrixElement ket
        = Operator.getMatrixElement (N.new Nmodes).Terms ket ket
      ↔ ∀ i, Nmodes ≤ i → ket.test i = false := by
  rw [N_generic]
  simp only [N.getMatrixElement, FockState.count, FockState.test, Nat.cast_inj]
  rw [← count_drop_eq_zero]
  conv_lhs => lhs; rw [← List.take_append_drop Nmodes ket.bits]
  rw [List.count_append]
  omega

/-- C4: for every `Sz` (in particular every one a constructor returns) and all `bra`, `ket`, the
closed form `getMatrixElement(ket)` is one half of the number of entries of `SpinUpIndices`
occupied in `ket` minus the number of entries of `SpinDownIndices` occupied in `ket`, and
`getMatrixElement(bra, ket)` is that value when `bra == ket` and 0 otherwise. -/
theorem Sz_getMatrixElement_spin_imbalance (sz : Sz) (bra ket : FockState) :
    sz.getMatrixElement ket = (1 / 2 : ℚ) *
      (((sz.SpinUpIndices.countP (fun index => ket.test index) : Nat) : ℚ)
        - ((sz.SpinDownIndices.countP (fun index => ket.test index) : Nat) : ℚ)) ∧
    sz.getMatrixElementBraKet bra ket =
      (if bra = ket then (1 / 2 : ℚ) *
        (((sz.SpinUpIndices.countP (fun index => ket.test index) : Nat) : ℚ)
          - ((sz.SpinDownIndices.countP (fun index => ket.test index) : Nat) : ℚ))
      else 0) := by
  have h := Sz_getMatrixElement_eq sz ket
  refine ⟨h, ?_⟩
  by_cases hbk : bra = ket
  · simp only [Sz.getMatrixElementBraKet, hbk, ne_eq, not_true_eq_false, if_false, if_true]
    exact h
  · simp [Sz.getMatrixElementBraKet, hbk]

/-- C5: for every `Sz` returned by the two-list constructor, repeated and shared indices included,
and every `ket`, the closed form `getMatrixElement(ket)` equals the diagonal matrix element
obtained by applying the terms built by `generateTerms` to `ket` with the elementary action and
summing the contributions. -/
theorem Sz_closed_form_eq_generic (fuel : Nat) (up down : List ParticleIndex) (sz : Sz)
    (ket : FockState) (hnew : Sz.new fuel up down = some (.ok sz)) :
    sz.getMatrixElement ket = Operator.getMatrixElement sz.Terms ket ket := by
  obtain ⟨hlen, _, hT, hup, hdown⟩ := Sz_new_ok fuel up down sz hnew
  rw [Sz_getMatrixElement_eq, hT, hup, hdown,
    getMatrixElement_diag ket _ (termPairs_diag ket up down), termPairs_sum ket up down hlen]

/-- Witness of C5: index lists with a repeated and a shared index, `up = [0, 0]` and
`down = [0, 1]`, on the two-mode state with both modes occupied. -/
theorem Sz_closed_form_eq_generic_witness :
    Sz.new 3 [0, 0] [0, 1] = some (.ok
      { Terms := Sz.termPairs [0, 0] [0, 1]
        Nmodes := 4
        SpinUpIndices := [0, 0]
        SpinDownIndices := [0, 1] }) ∧
    Sz.getMatrixElement
      { Terms := Sz.termPairs [0, 0] [0, 1]
        Nmodes := 4
        SpinUpIndices := [0, 0]
        SpinDownIndices := [0, 1] } ⟨[true, true]⟩
      = Operator.getMatrixElement (Sz.termPairs [0, 0] [0, 1]) ⟨[true, true]⟩ ⟨[true, true]⟩ :=
  ⟨Sz_new_succeeds 3 [0, 0] [0, 1] rfl (by decide) (by decide),
    Sz_closed_form_eq_generic 3 [0, 0] [0, 1] _ ⟨[true, true]⟩
      (Sz_new_succeeds 3 [0, 0] [0, 1] rfl (by decide) (by decide))⟩

/-- Behaviour of the two-list constructor of `Sz` away from the wrap of the counter: it raises
`exWrongLabel` if and only if the two lists have different lengths, and when the lengths are equal
to some `L` below `2^16` it returns, with any fuel above `L`, an operator with exactly `2 * L`
terms. -/
theorem Sz_new_exWrongLabel_iff_and_terms (fuel : Nat) (up down : List ParticleIndex) :
    (Sz.new fuel up down = some (.error Exception.exWrongLabel) ↔ up.length ≠ down.length) ∧
    (up.length = down.length → up.length < 65536 → up.length < fuel →
      ∃ sz, Sz.new fuel up down = some (.ok sz) ∧ sz.Terms.length = 2 * up.length) := by
  constructor
  · constructor
    · intro h hlen
      simp [Sz.new, hlen, Sz.generateTerms] at h
    · intro hlen
      simp [Sz.new, hlen]
  · intro hlen hL hfuel
    exact ⟨_, Sz_new_succeeds fuel up down hlen hL hfuel, termPairs_length up down hlen⟩

/-- Two index lists of length 2 give an operator with 4 terms. -/
theorem Sz_new_exWrongLabel_iff_and_terms_example :
    ∃ sz, Sz.new 3 [2, 3] [0, 1] = some (.ok sz) ∧ sz.Terms.length = 2 * [2, 3].length :=
  (Sz_new_exWrongLabel_iff_and_terms 3 [2, 3] [0, 1]).2 rfl (by decide) (by decide)

/-- C6 at the failing input: for two index lists of the same length 65536 no amount of fuel makes
the constructor return, neither with an operator nor with `exWrongLabel`, because the 16-bit
counter of `generateTerms` wraps to 0 before it reaches the size of the list. -/
theorem Sz_new_equal_lengths_not_constructed :
    (List.replicate 65536 (0 : ParticleIndex)).length
        = (List.replicate 65536 (0 : ParticleIndex)).length ∧
    ∀ fuel, Sz.new fuel (List.replicate 65536 0) (List.replicate 65536 0) = none := by
  refine ⟨rfl, fun fuel => Sz_new_none_of_long fuel _ _ rfl ?_⟩
  rw [List.length_replicate]
  exact Nat.le_refl _

/-- C7, as stated, fails: on the empty two-mode state the map returned by `N::actRight` holds the
entry of that state with matrix element zero. -/
theorem N_actRight_has_zero_entry :
    ∃ e ∈ (N.new 2).actRight ⟨[false, false]⟩, e.2 = 0 := by
  refine ⟨(⟨[false, false]⟩, 0), ?_, rfl⟩
  simp [N.actRight, N.getMatrixElement, FockState.count]

theorem exists_test_iff_count_ne_zero (ket : FockState) :
    (∃ i, ket.test i = true) ↔ ket.bits.count true ≠ 0 := by
  rw [Ne, List.count_eq_zero, not_not]
  constructor
  · rintro ⟨i, hi⟩
    by_cases hl : i < ket.bits.length
    · simp only [FockState.test, List.getD_eq_getElem?_getD, List.getElem?_eq_getElem hl,
        Option.getD_some] at hi
      rw [← hi]
      exact List.getElem_mem hl
    · have hl2 : ket.bits.length ≤ i := Nat.le_of_not_lt hl
      simp [FockState.test, List.getD_eq_getElem?_getD, List.getElem?_eq_none hl2] at hi
  · intro hmem
    obtain ⟨i, hi, hget⟩ := List.mem_iff_getElem.1 hmem
    exact ⟨i, by
      simp only [FockState.test, List.getD_eq_getElem?_getD, List.getElem?_eq_getElem hi,
        Option.getD_some, hget]⟩

/-- C7, amended: the map returned by `N::actRight` and by `Sz::actRight` holds exactly one entry,
keyed by `ket`, whose value is `getMatrixElement(ket)`: for `N` the number of occupied modes of
`ket`, for `Sz` one half of the number of occupied entries of `SpinUpIndices` minus the number of
occupied entries of `SpinDownIndices`. The map holds no entry with a zero matrix element exactly
when that value is not zero: for `N` exactly when `ket` has at least one occupied mode, for `Sz`
exactly when the two numbers of occupied entries differ. -/
theorem preset_actRight_single_entry (n : N) (sz : Sz) (ket : FockState) :
    n.actRight ket = [(ket, n.getMatrixElement ket)] ∧
    n.getMatrixElement ket = ((ket.bits.count true : Nat) : ℚ) ∧
    ((∀ e ∈ n.actRight ket, e.2 ≠ 0) ↔ n.getMatrixElement ket ≠ 0) ∧
    ((∀ e ∈ n.actRight ket, e.2 ≠ 0) ↔ ∃ i, ket.test i = true) ∧
    sz.actRight ket = [(ket, sz.getMatrixElement ket)] ∧
    sz.getMatrixElement ket = (1 / 2 : ℚ) *
      (((sz.SpinUpIndices.countP (fun index => ket.test index) : Nat) : ℚ)
        - ((sz.SpinDownIndices.countP (fun index => ket.test index) : Nat) : ℚ)) ∧
    ((∀ e ∈ sz.actRight ket, e.2 ≠ 0) ↔ sz.getMatrixElement ket ≠ 0) ∧
    ((∀ e ∈ sz.actRight ket, e.2 ≠ 0) ↔
      sz.SpinUpIndices.countP (fun index => ket.test index)
        ≠ sz.SpinDownIndices.countP (fun index => ket.test index)) := by
  have hN : (∀ e ∈ n.actRight ket, e.2 ≠ 0) ↔ n.getMatrixElement ket ≠ 0 := by
    simp [N.actRight]
  have hSz : (∀ e ∈ sz.actRight ket, e.2 ≠ 0) ↔ sz.getMatrixElement ket ≠ 0 := by
    simp [Sz.actRight]
  refine ⟨rfl, rfl, hN, ?_, rfl, Sz_getMatrixElement_eq sz ket, hSz, ?_⟩
  · rw [hN, exists_test_iff_count_ne_zero]
    simp only [N.getMatrixElement, FockState.count, ne_eq, Nat.cast_eq_zero]
  · rw [hSz, Sz_getMatrixElement_eq]
    constructor
    · intro h heq
      apply h
      rw [heq]
      ring
    · intro h hzero
      apply h
      have h2 : ((sz.SpinUpIndices.countP (fun index => ket.test index) : Nat) : ℚ)
          - ((sz.SpinDownIndices.countP (fun index => ket.test index) : Nat) : ℚ) = 0 := by
        rcases mul_eq_zero.1 hzero with h1 | h1
        · norm_num at h1
        · exact h1
      exact_mod_cast sub_eq_zero.1 h2

/-- C8: for the presets `N` and `Sz` and all `bra`, `ket`, `getMatrixElement(bra, ket)` is the
coefficient stored under the key `bra` in `actRight(ket)` when `bra` is a key of that map, and 0
when it is not. -/
theorem preset_getMatrixElement_eq_find_actRight (n : N) (sz : Sz) (bra ket : FockState) :
    n.getMatrixElementBraKet bra ket =
      (match FockMap.find (n.actRight ket) bra with
        | some c => c
        | none => 0) ∧
    sz.getMatrixElementBraKet bra ket =
      (match FockMap.find (sz.actRight ket) bra with
        | some c => c
        | none => 0) := by
  constructor
  · by_cases h : bra = ket
    · subst h
      simp [N.getMatrixElementBraKet, N.actRight, FockMap.find]
    · have h' : ¬ ket = bra := fun e => h e.symm
      simp [N.getMatrixElementBraKet, N.actRight, FockMap.find, h, h']
  · by_cases h : bra = ket
    · subst h
      simp [Sz.getMatrixElementBraKet, Sz.actRight, FockMap.find]
    · have h' : ¬ ket = bra := fun e => h e.symm
      simp [Sz.getMatrixElementBraKet, Sz.actRight, FockMap.find, h, h']

/-- C9: each of `getWeight`, `getAverageEnergy`, `getAverageOccupancy` and
`getAverageDoubleOccupancy` returns the status-mismatch failure, for every argument and whatever
the parts hold, exactly when `Status < Computed`; with `Status == Computed` none of them raises
it. -/
theorem queries_exStatusMismatch_iff {K : Type} [Field K] (d : DensityMatrix K)
    (state : QuantumState) (partAverageOccupancy : DensityMatrixPart K → K)
    (partAverageDoubleOccupancy : DensityMatrixPart K → ParticleIndex → ParticleIndex → K)
    (i j : ParticleIndex) :
    (d.getWeight state = .error Exception.exStatusMismatch
      ↔ d.Status < ObjectStatus.Computed) ∧
    (d.getAverageEnergy = .error Exception.exStatusMismatch
      ↔ d.Status < ObjectStatus.Computed) ∧
    (d.getAverageOccupancy partAverageOccupancy = .error Exception.exStatusMismatch
      ↔ d.Status < ObjectStatus.Computed) ∧
    (d.getAverageDoubleOccupancy partAverageDoubleOccupancy i j
        = .error Exception.exStatusMismatch
      ↔ d.Status < ObjectStatus.Computed) := by
  by_cases h : d.Status < ObjectStatus.Computed
  · simp [DensityMatrix.getWeight, DensityMatrix.getAverageEnergy,
      DensityMatrix.getAverageOccupancy, DensityMatrix.getAverageDoubleOccupancy, h]
  · refine ⟨?_, ?_, ?_, ?_⟩
    · simp only [DensityMatrix.getWeight, h, if_false, iff_false]
      cases hp : d.parts.get? (d.S.getBlockNumber state) with
      | none => simp
      | some o =>
        cases o with
        | none => simp
        | some part =>
          simp only [DensityMatrixPart.getWeight]
          cases part.weights.get? (d.S.getInnerState state) <;> simp
    · simp only [DensityMatrix.getAverageEnergy, h, if_false, iff_false]
      exact sumOverParts_ne_exStatusMismatch _ _ _
    · simp only [DensityMatrix.getAverageOccupancy, h, if_false, iff_false]
      exact sumOverParts_ne_exStatusMismatch _ _ _
    · simp only [DensityMatrix.getAverageDoubleOccupancy, h, if_false, iff_false]
      exact sumOverParts_ne_exStatusMismatch _ _ _

/-- C10: `prepare()` and `compute()` are idempotent. For every state, two calls of `prepare()`
leave the state that one call leaves; two calls of `compute()` in a row have the outcome of one
call, failure on a missing part included; and on a freshly constructed and prepared density
matrix `compute()` returns a state that a second `compute()` returns unchanged. -/
theorem prepare_compute_idempotent {K : Type} [Field K] (expf : K → K) (d : DensityMatrix K)
    (S : StatesClassification) (H : Hamiltonian K) (beta : K) :
    d.prepare.prepare = d.prepare ∧
    (d.compute expf).bind (DensityMatrix.compute expf) = d.compute expf ∧
    ∃ d', (DensityMatrix.new S H beta).prepare.compute expf = .ok d' ∧
      d'.compute expf = .ok d' := by
  refine ⟨?_, ?_, ?_⟩
  · by_cases h : d.Status ≥ ObjectStatus.Prepared
    · simp [DensityMatrix.prepare, h]
    · have hp : ObjectStatus.Prepared ≥ ObjectStatus.Prepared := by decide
      simp only [DensityMatrix.prepare, h, if_false, hp, if_true]
  · cases hc : d.compute expf with
    | error e => rfl
    | ok d' =>
      have hst := compute_ok_status expf d d' hc
      have hge : d'.Status ≥ ObjectStatus.Computed := (status_ge_computed_iff _).2 hst
      simp only [Except.bind, DensityMatrix.compute, hge, if_true]
  · have hparts : (DensityMatrix.new S H beta).prepare.parts =
        ((List.range S.NumberOfBlocks).map
          (fun n => DensityMatrixPart.new (H.getPart n) beta H.getGroundEnergy)).map some := by
      rw [prepare_new, List.map_map]
      rfl
    have hst : (DensityMatrix.new S H beta).prepare.Status ≠ ObjectStatus.Computed := by
      rw [prepare_new]; intro h; cases h
    refine ⟨_, compute_of_allocated expf _ _ hparts hst, ?_⟩
    have hc : ObjectStatus.Computed ≥ ObjectStatus.Computed := by decide
    simp only [DensityMatrix.compute, hc, if_true]

/-! ## Auxiliary lemmas: persistence and the status machine -/

theorem load_Status {K : Type} [DecidableEq K] (d : DensityMatrix K) (RootGroup : CommonFG K) :
    (d.load RootGroup).2.Status = d.Status := by
  unfold DensityMatrix.load
  cases RootGroup with
  | none => rfl
  | some g =>
    simp only []
    split
    · rfl
    · split
      · rfl
      · rfl

theorem status_le_computed (st : ObjectStatus) : st ≤ ObjectStatus.Computed := by
  cases st <;> decide

theorem status_le_refl (st : ObjectStatus) : st ≤ st := Nat.le_refl _

theorem prepare_Status_ge {K : Type} [Field K] (d : DensityMatrix K) :
    d.Status ≤ d.prepare.Status := by
  unfold DensityMatrix.prepare
  by_cases h : d.Status ≥ ObjectStatus.Prepared
  · simp only [h, if_true]; exact status_le_refl _
  · simp only [h, if_false]
    have hc : d.Status = ObjectStatus.Constructed := by
      by_contra hne
      exact h ((status_ge_prepared_iff _).2 hne)
    rw [hc]
    decide

theorem stateAfterConst_eq {K α : Type} (d d' : DensityMatrix K) (outcome : Except Exception α)
    (h : stateAfterConst d outcome = some d') : d' = d := by
  unfold stateAfterConst at h
  cases outcome with
  | ok a => simp at h; exact h.symm
  | error e =>
    simp only [] at h
    split at h
    · cases h
    · simp at h; exact h.symm

theorem singleOp_actRight (c : ℚ) (op : ElemOp) (s : FockState) :
    Term.actRight (c, [op]) s = (ElemOp.act op s).map (fun r => (r.1, c * ((1 * r.2 : Int) : ℚ))) := by
  simp only [Term.actRight, List.foldr_cons, List.foldr_nil, Option.some_bind, Option.map_map]
  rfl

theorem ElemOp_act_twice (b : Bool) (i : ParticleIndex) (s : FockState) (r : FockState × Int)
    (h : ElemOp.act (b, i) s = some r) : ElemOp.act (b, i) r.1 = none := by
  unfold ElemOp.act at h
  by_cases hlen : s.bits.length ≤ i
  · simp [hlen] at h
  · by_cases ht : s.test i = b
    · simp [hlen, ht] at h
    · simp only [hlen, ht, if_false, Option.some.injEq] at h
      subst h
      have hlt : i < s.bits.length := Nat.lt_of_not_le hlen
      have h2 : (s.set i b).test i = b := by
        simp [FockState.test, FockState.set, List.getD_eq_getElem?_getD, hlt]
      simp [ElemOp.act, h2]

theorem ElemOp_act_annihilate_unoccupied (i : ParticleIndex) (s : FockState)
    (h : s.test i = false) : ElemOp.act (false, i) s = none := by
  simp [ElemOp.act, h]

theorem computeUnnormalizedLoopTrace_erase {K : Type} [Field K] (expf : K → K)
    (parts : List (Option (DensityMatrixPart K))) (n : BlockNumber) (Z : K) :
    (DensityMatrix.computeUnnormalizedLoopTrace expf parts n Z).map (fun r => (r.1, r.2.1))
      = DensityMatrix.computeUnnormalizedLoop expf parts Z := by
  induction parts generalizing n Z with
  | nil => rfl
  | cons p rest ih =>
    cases p with
    | none => rfl
    | some p =>
      simp only [DensityMatrix.computeUnnormalizedLoopTrace, DensityMatrix.computeUnnormalizedLoop]
      rw [← ih (n + 1)]
      cases DensityMatrix.computeUnnormalizedLoopTrace expf rest (n + 1)
        (Z + (p.computeUnnormalized expf).2) <;> rfl

theorem normalizeLoopTrace_erase {K : Type} [Field K] (Z : K)
    (parts : List (Option (DensityMatrixPart K))) (n : BlockNumber) :
    (DensityMatrix.normalizeLoopTrace Z parts n).map (fun r => r.1)
      = DensityMatrix.normalizeLoop Z parts := by
  induction parts generalizing n with
  | nil => rfl
  | cons p rest ih =>
    cases p with
    | none => rfl
    | some p =>
      simp only [DensityMatrix.normalizeLoopTrace, DensityMatrix.normalizeLoop]
      rw [← ih (n + 1)]
      cases DensityMatrix.normalizeLoopTrace Z rest (n + 1) <;> rfl

/-- Forgetting the recorded calls, the traced `compute` is `compute`. -/
theorem computeTrace_erase {K : Type} [Field K] (expf : K → K) (d : DensityMatrix K) :
    (d.computeTrace expf).map (fun r => r.1) = d.compute expf := by
  unfold DensityMatrix.computeTrace DensityMatrix.compute
  by_cases hs : d.Status ≥ ObjectStatus.Computed
  · simp only [hs, if_true]; rfl
  · simp only [hs, if_false]
    rw [← computeUnnormalizedLoopTrace_erase expf d.parts 0 0]
    cases h1 : DensityMatrix.computeUnnormalizedLoopTrace expf d.parts 0 0 with
    | error e => rfl
    | ok r =>
      simp only [Except.map]
      rw [← normalizeLoopTrace_erase r.2.1 r.1 0]
      cases h2 : DensityMatrix.normalizeLoopTrace r.2.1 r.1 0 <;> rfl

theorem enumFrom_map_fst {α β γ : Type} (f : α → β) (g : Nat → γ) (ps : List α) (n : Nat) :
    ((ps.map f).enumFrom n).map (fun x => g x.1) = (ps.enumFrom n).map (fun x => g x.1) := by
  induction ps generalizing n with
  | nil => rfl
  | cons p ps ih =>
    simp only [List.map_cons, List.enumFrom_cons, List.cons.injEq, true_and]
    exact ih (n + 1)

theorem computeUnnormalizedLoopTrace_some {K : Type} [Field K] (expf : K → K)
    (ps : List (DensityMatrixPart K)) (n : BlockNumber) (Z : K) :
    DensityMatrix.computeUnnormalizedLoopTrace expf (ps.map some) n Z =
      .ok (ps.map (fun p => some (p.computeUnnormalized expf).1),
        Z + (ps.map (fun p => (p.computeUnnormalized expf).2)).sum,
        (ps.enumFrom n).map
          (fun x => PartCall.computeUnnormalized x.1 (x.2.computeUnnormalized expf).2)) := by
  induction ps generalizing n Z with
  | nil => simp [DensityMatrix.computeUnnormalizedLoopTrace]
  | cons p ps ih =>
    simp only [List.map_cons, DensityMatrix.computeUnnormalizedLoopTrace, ih, List.sum_cons,
      List.enumFrom_cons]
    rw [add_assoc]

theorem normalizeLoopTrace_some {K : Type} [Field K] (Z : K) (ps : List (DensityMatrixPart K))
    (n : BlockNumber) :
    DensityMatrix.normalizeLoopTrace Z (ps.map some) n =
      .ok (ps.map (fun p => some (p.normalize Z)),
        (ps.enumFrom n).map (fun x => PartCall.normalize x.1 Z)) := by
  induction ps generalizing n with
  | nil => simp [DensityMatrix.normalizeLoopTrace]
  | cons p ps ih =>
    simp only [List.map_cons, DensityMatrix.normalizeLoopTrace, ih, List.enumFrom_cons]

/-- Every part pointer of the list is set. -/
theorem computeUnnormalizedLoop_allocated {K : Type} [Field K] (expf : K → K)
    (parts : List (Option (DensityMatrixPart K))) (Z : K)
    (r : List (Option (DensityMatrixPart K)) × K)
    (h : DensityMatrix.computeUnnormalizedLoop expf parts Z = .ok r) :
    r.1.length = parts.length ∧ ∀ p ∈ r.1, p ≠ none := by
  induction parts generalizing Z r with
  | nil =>
    simp only [DensityMatrix.computeUnnormalizedLoop, Except.ok.injEq] at h
    subst h; simp
  | cons p rest ih =>
    cases p with
    | none => simp [DensityMatrix.computeUnnormalizedLoop] at h
    | some p =>
      simp only [DensityMatrix.computeUnnormalizedLoop] at h
      cases hr : DensityMatrix.computeUnnormalizedLoop expf rest
          (Z + (p.computeUnnormalized expf).2) with
      | error e => simp [hr] at h
      | ok r1 =>
        simp only [hr, Except.ok.injEq] at h
        subst h
        obtain ⟨h1, h2⟩ := ih _ r1 hr
        refine ⟨by simp [h1], ?_⟩
        intro q hq
        simp only [List.mem_cons] at hq
        rcases hq with rfl | hq
        · simp
        · exact h2 q hq

theorem normalizeLoop_allocated {K : Type} [Field K] (Z : K)
    (parts r : List (Option (DensityMatrixPart K)))
    (h : DensityMatrix.normalizeLoop Z parts = .ok r) :
    r.length = parts.length ∧ ∀ p ∈ r, p ≠ none := by
  induction parts generalizing r with
  | nil =>
    simp only [DensityMatrix.normalizeLoop, Except.ok.injEq] at h
    subst h; simp
  | cons p rest ih =>
    cases p with
    | none => simp [DensityMatrix.normalizeLoop] at h
    | some p =>
      simp only [DensityMatrix.normalizeLoop] at h
      cases hr : DensityMatrix.normalizeLoop Z rest with
      | error e => simp [hr] at h
      | ok r1 =>
        simp only [hr, Except.ok.injEq] at h
        subst h
        obtain ⟨h1, h2⟩ := ih r1 hr
        refine ⟨by simp [h1], ?_⟩
        intro q hq
        simp only [List.mem_cons] at hq
        rcases hq with rfl | hq
        · simp
        · exact h2 q hq

theorem loadLoop_allocated {K : Type} (PartsGroup : List (String × H5PartGroup K))
    (ns : List BlockNumber) (parts : List (Option (DensityMatrixPart K))) :
    (DensityMatrix.loadLoop PartsGroup ns parts).2.length = parts.length ∧
    ((∀ p ∈ parts, p ≠ none) →
      ∀ p ∈ (DensityMatrix.loadLoop PartsGroup ns parts).2, p ≠ none) := by
  induction ns generalizing parts with
  | nil => simp [DensityMatrix.loadLoop]
  | cons n rest ih =>
    simp only [DensityMatrix.loadLoop]
    cases openGroup PartsGroup (toString n) with
    | none => simp
    | some g =>
      simp only []
      cases hp : parts.get? n with
      | none => simp
      | some o =>
        cases o with
        | none => simp
        | some part =>
          simp only []
          obtain ⟨h1, h2⟩ := ih (parts.set n (some (part.load g)))
          refine ⟨by rw [h1, List.length_set], ?_⟩
          intro hall
          apply h2
          intro p hp2
          rcases List.mem_or_eq_of_mem_set hp2 with hm | he
          · exact hall p hm
          · rw [he]; simp

theorem sumOverParts_ok {K : Type} [Field K] (value : DensityMatrixPart K → K)
    (parts : List (Option (DensityMatrixPart K))) (acc : K) (hall : ∀ p ∈ parts, p ≠ none) :
    ∃ v, DensityMatrix.sumOverParts value parts acc = .ok v := by
  induction parts generalizing acc with
  | nil => exact ⟨acc, rfl⟩
  | cons p rest ih =>
    cases p with
    | none => exact absurd rfl (hall none (List.mem_cons_self _ _))
    | some p =>
      simp only [DensityMatrix.sumOverParts]
      exact ih _ (fun q hq => hall q (List.mem_cons_of_mem _ hq))

/-- The invariant of the part vector: it has one entry per block and, once the status is at least
`Prepared`, no entry is a null pointer. -/
theorem stateAfter_invariant {K : Type} [Field K] [DecidableEq K] (expf : K → K)
    (partAverageOccupancy : DensityMatrixPart K → K)
    (partAverageDoubleOccupancy : DensityMatrixPart K → ParticleIndex → ParticleIndex → K)
    (S : StatesClassification) (d d' : DensityMatrix K) (op : Operation K)
    (h : d.stateAfter expf partAverageOccupancy partAverageDoubleOccupancy op = some d')
    (hinv : d.S = S ∧ d.parts.length = S.NumberOfBlocks ∧
      (d.Status ≥ ObjectStatus.Prepared → ∀ p ∈ d.parts, p ≠ none)) :
    d'.S = S ∧ d'.parts.length = S.NumberOfBlocks ∧
      (d'.Status ≥ ObjectStatus.Prepared → ∀ p ∈ d'.parts, p ≠ none) := by
  obtain ⟨hS, hlen, hall⟩ := hinv
  cases op with
  | prepare =>
    simp only [DensityMatrix.stateAfter, Option.some.injEq] at h
    subst h
    unfold DensityMatrix.prepare
    by_cases hp : d.Status ≥ ObjectStatus.Prepared
    · rw [if_pos hp]; exact ⟨hS, hlen, hall⟩
    · rw [if_neg hp]
      simp only []
      rw [foldl_set_eq_map]
      refine ⟨hS, by simp [hlen], ?_⟩
      intro _ p hp2
      obtain ⟨n, _, rfl⟩ := List.mem_map.1 hp2
      simp
  | compute =>
    simp only [DensityMatrix.stateAfter] at h
    cases hc : d.compute expf with
    | error e => simp [hc] at h
    | ok d1 =>
      simp only [hc, Option.some.injEq] at h
      subst h
      unfold DensityMatrix.compute at hc
      by_cases hs : d.Status ≥ ObjectStatus.Computed
      · simp only [hs, if_true, Except.ok.injEq] at hc
        subst hc; exact ⟨hS, hlen, hall⟩
      · simp only [hs, if_false] at hc
        cases h1 : DensityMatrix.computeUnnormalizedLoop expf d.parts 0 with
        | error e => simp [h1] at hc
        | ok r =>
          simp only [h1] at hc
          cases h2 : DensityMatrix.normalizeLoop r.2 r.1 with
          | error e => simp [h2] at hc
          | ok parts =>
            simp only [h2, Except.ok.injEq] at hc
            subst hc
            obtain ⟨l1, _⟩ := computeUnnormalizedLoop_allocated expf d.parts 0 r h1
            obtain ⟨l2, a2⟩ := normalizeLoop_allocated r.2 r.1 parts h2
            exact ⟨hS, by simp only []; rw [l2, l1, hlen], fun _ => a2⟩
  | save RootGroup =>
    rw [stateAfterConst_eq d d' _ h]; exact ⟨hS, hlen, hall⟩
  | load RootGroup =>
    have hload : (d.load RootGroup).2.S = S ∧
        (d.load RootGroup).2.parts.length = S.NumberOfBlocks ∧
        ((d.load RootGroup).2.Status ≥ ObjectStatus.Prepared →
          ∀ p ∈ (d.load RootGroup).2.parts, p ≠ none) := by
      unfold DensityMatrix.load
      cases RootGroup with
      | none => exact ⟨hS, hlen, hall⟩
      | some g =>
        simp only []
        split
        · exact ⟨hS, hlen, hall⟩
        · split
          · exact ⟨hS, hlen, hall⟩
          · obtain ⟨l1, a1⟩ := loadLoop_allocated g.parts (List.range d.parts.length) d.parts
            exact ⟨hS, by simp only []; rw [l1, hlen], fun hp => a1 (hall hp)⟩
    simp only [DensityMatrix.stateAfter] at h
    cases ho : (d.load RootGroup).1 with
    | ok u =>
      simp only [ho, Option.some.injEq] at h
      rw [← h]; exact hload
    | error e =>
      simp only [ho] at h
      split at h
      · cases h
      · simp only [Option.some.injEq] at h
        rw [← h]; exact hload
  | getWeight state =>
    rw [stateAfterConst_eq d d' _ h]; exact ⟨hS, hlen, hall⟩
  | getAverageEnergy =>
    rw [stateAfterConst_eq d d' _ h]; exact ⟨hS, hlen, hall⟩
  | getAverageOccupancy =>
    rw [stateAfterConst_eq d d' _ h]; exact ⟨hS, hlen, hall⟩
  | getAverageDoubleOccupancy i j =>
    rw [stateAfterConst_eq d d' _ h]; exact ⟨hS, hlen, hall⟩

theorem run_invariant {K : Type} [Field K] [DecidableEq K] (expf : K → K)
    (partAverageOccupancy : DensityMatrixPart K → K)
    (partAverageDoubleOccupancy : DensityMatrixPart K → ParticleIndex → ParticleIndex → K)
    (S : StatesClassification) (ops : List (Operation K)) (d d' : DensityMatrix K)
    (h : DensityMatrix.run expf partAverageOccupancy partAverageDoubleOccupancy ops d = some d')
    (hinv : d.S = S ∧ d.parts.length = S.NumberOfBlocks ∧
      (d.Status ≥ ObjectStatus.Prepared → ∀ p ∈ d.parts, p ≠ none)) :
    d'.S = S ∧ d'.parts.length = S.NumberOfBlocks ∧
      (d'.Status ≥ ObjectStatus.Prepared → ∀ p ∈ d'.parts, p ≠ none) := by
  induction ops generalizing d with
  | nil =>
    simp only [DensityMatrix.run, Option.some.injEq] at h
    rw [← h]; exact hinv
  | cons op ops ih =>
    simp only [DensityMatrix.run] at h
    cases hs : d.stateAfter expf partAverageOccupancy partAverageDoubleOccupancy op with
    | none => simp [hs] at h
    | some d1 =>
      simp only [hs] at h
      exact ih d1 h (stateAfter_invariant expf _ _ S d d1 op hs hinv)

theorem normalizeLoop_computeUnnormalized {K : Type} [Field K] (expf : K → K)
    (ps : List (DensityMatrixPart K)) (Z : K) :
    DensityMatrix.normalizeLoop Z (ps.map (fun p => some (p.computeUnnormalized expf).1))
      = .ok (ps.map (fun p => some ((p.computeUnnormalized expf).1.normalize Z))) := by
  have h := normalizeLoop_some Z (ps.map (fun p => (p.computeUnnormalized expf).1))
  rw [List.map_map, List.map_map] at h
  exact h

theorem sum_map_le_length {α : Type} (l : List α) (f : α → ℝ) (h : ∀ x ∈ l, f x ≤ 1) :
    (l.map f).sum ≤ (l.length : ℝ) := by
  induction l with
  | nil => simp
  | cons a l ih =>
    have h1 := h a (List.mem_cons_self _ _)
    have h2 := ih (fun x hx => h x (List.mem_cons_of_mem _ hx))
    simp only [List.map_cons, List.sum_cons, List.length_cons, Nat.cast_add, Nat.cast_one]
    linarith

theorem sum_map_nonneg {α : Type} (l : List α) (f : α → ℝ) (h : ∀ x ∈ l, 0 ≤ f x) :
    0 ≤ (l.map f).sum := by
  induction l with
  | nil => simp
  | cons a l ih =>
    have h1 := h a (List.mem_cons_self _ _)
    have h2 := ih (fun x hx => h x (List.mem_cons_of_mem _ hx))
    simp only [List.map_cons, List.sum_cons]
    linarith

theorem le_sum_map_of_mem {α : Type} (l : List α) (f : α → ℝ) (h : ∀ x ∈ l, 0 ≤ f x)
    (a : α) (ha : a ∈ l) : f a ≤ (l.map f).sum := by
  induction l with
  | nil => cases ha
  | cons b l ih =>
    have h1 := h b (List.mem_cons_self _ _)
    have hrest : ∀ x ∈ l, 0 ≤ f x := fun x hx => h x (List.mem_cons_of_mem _ hx)
    simp only [List.map_cons, List.sum_cons]
    rcases List.mem_cons.1 ha with rfl | hm
    · have := sum_map_nonneg l f hrest
      linarith
    · have := ih hrest hm
      linarith

theorem sum_map_le_sum_map {α : Type} (l : List α) (f g : α → ℝ) (h : ∀ x ∈ l, f x ≤ g x) :
    (l.map f).sum ≤ (l.map g).sum := by
  induction l with
  | nil => simp
  | cons a l ih =>
    have h1 := h a (List.mem_cons_self _ _)
    have h2 := ih (fun x hx => h x (List.mem_cons_of_mem _ hx))
    simp only [List.map_cons, List.sum_cons]
    linarith

/-- The sum accumulated by the first loop of `compute` on a freshly prepared density matrix,
written over the blocks and their eigenvalues. -/
theorem unnormalized_sum_eq {K : Type} [Field K] (expf : K → K) (S : StatesClassification)
    (H : Hamiltonian K) (beta : K) :
    (((List.range S.NumberOfBlocks).map
        (fun n => DensityMatrixPart.new (H.getPart n) beta H.getGroundEnergy)).map
      (fun p => (p.computeUnnormalized expf).2)).sum
    = ((List.range S.NumberOfBlocks).map (fun n =>
        ((H.getPart n).eigenvalues.map
          (fun E => expf (-beta * (E - H.getGroundEnergy)))).sum)).sum := by
  rw [List.map_map]
  rfl

theorem boltzmann_weight_bounds (beta E E0 : ℝ) (hbeta : 0 < beta) (hE : E0 ≤ E) :
    0 < Real.exp (-beta * (E - E0)) ∧ Real.exp (-beta * (E - E0)) ≤ 1 := by
  refine ⟨Real.exp_pos _, ?_⟩
  rw [Real.exp_le_one_iff]
  have : 0 ≤ beta * (E - E0) := mul_nonneg (le_of_lt hbeta) (by linarith)
  linarith

/-- Bounds of the partition function of a spectrum whose minimum is the ground energy. -/
theorem partition_function_bounds (S : StatesClassification) (H : Hamiltonian ℝ) (beta : ℝ)
    (hbeta : 0 < beta)
    (hmin : ∀ n, n < S.NumberOfBlocks → ∀ E ∈ (H.getPart n).eigenvalues, H.getGroundEnergy ≤ E)
    (hatt : ∃ n, n < S.NumberOfBlocks ∧ H.getGroundEnergy ∈ (H.getPart n).eigenvalues) :
    1 ≤ ((List.range S.NumberOfBlocks).map (fun n =>
        ((H.getPart n).eigenvalues.map
          (fun E => Real.exp (-beta * (E - H.getGroundEnergy)))).sum)).sum ∧
    ((List.range S.NumberOfBlocks).map (fun n =>
        ((H.getPart n).eigenvalues.map
          (fun E => Real.exp (-beta * (E - H.getGroundEnergy)))).sum)).sum
      ≤ ((((List.range S.NumberOfBlocks).map
          (fun n => (H.getPart n).eigenvalues.length)).sum : Nat) : ℝ) := by
  have hblock_nonneg : ∀ n ∈ List.range S.NumberOfBlocks,
      0 ≤ ((H.getPart n).eigenvalues.map
        (fun E => Real.exp (-beta * (E - H.getGroundEnergy)))).sum := by
    intro n _
    exact sum_map_nonneg _ _ (fun E _ => le_of_lt (Real.exp_pos _))
  constructor
  · obtain ⟨n0, hn0, hE0⟩ := hatt
    have h1 : (1 : ℝ) ≤ ((H.getPart n0).eigenvalues.map
        (fun E => Real.exp (-beta * (E - H.getGroundEnergy)))).sum := by
      have := le_sum_map_of_mem (H.getPart n0).eigenvalues
        (fun E => Real.exp (-beta * (E - H.getGroundEnergy)))
        (fun E _ => le_of_lt (Real.exp_pos _)) H.getGroundEnergy hE0
      simpa using this
    have h2 := le_sum_map_of_mem (List.range S.NumberOfBlocks)
      (fun n => ((H.getPart n).eigenvalues.map
        (fun E => Real.exp (-beta * (E - H.getGroundEnergy)))).sum)
      hblock_nonneg n0 (List.mem_range.2 hn0)
    exact le_trans h1 h2
  · rw [Nat.cast_list_sum, List.map_map]
    apply sum_map_le_sum_map
    intro n hn
    apply sum_map_le_length
    intro E hE
    exact (boltzmann_weight_bounds beta E _ hbeta (hmin n (List.mem_range.1 hn) E hE)).2

/-- Closed form of the weight returned by `getWeight` after `prepare()` and `compute()`. -/
theorem computedWeight_eq {K : Type} [Field K] (expf : K → K) (S : StatesClassification)
    (H : Hamiltonian K) (beta : K) (q : QuantumState) (E : K)
    (hn : S.getBlockNumber q < S.NumberOfBlocks)
    (hE : (H.getPart (S.getBlockNumber q)).eigenvalues.get? (S.getInnerState q) = some E) :
    DensityMatrix.computedWeight expf S H beta q =
      expf (-beta * (E - H.getGroundEnergy)) /
        ((List.range S.NumberOfBlocks).map (fun n =>
          ((H.getPart n).eigenvalues.map
            (fun E => expf (-beta * (E - H.getGroundEnergy)))).sum)).sum := by
  have hparts : (DensityMatrix.new S H beta).prepare.parts =
      ((List.range S.NumberOfBlocks).map
        (fun n => DensityMatrixPart.new (H.getPart n) beta H.getGroundEnergy)).map some := by
    rw [prepare_new, List.map_map]
    rfl
  have hst : (DensityMatrix.new S H beta).prepare.Status ≠ ObjectStatus.Computed := by
    rw [prepare_new]; intro h; cases h
  have hS : (DensityMatrix.new S H beta).prepare.S = S := by rw [prepare_new]
  have hlt : ¬ (ObjectStatus.Computed < ObjectStatus.Computed) := by decide
  rw [List.get?_eq_getElem?] at hE
  unfold DensityMatrix.computedWeight
  rw [compute_of_allocated expf _ _ hparts hst]
  simp only [DensityMatrix.getWeight, hlt, if_false, hS, List.get?_eq_getElem?,
    List.getElem?_map, List.getElem?_range hn, Option.map_some',
    DensityMatrixPart.getWeight, DensityMatrixPart.normalize,
    DensityMatrixPart.computeUnnormalized, DensityMatrixPart.new, hE, zero_add]
  rw [List.map_map]
  rfl

theorem tendsto_boltzmann_weight (E E0 : ℝ) (h : E0 ≤ E) :
    Filter.Tendsto (fun beta : ℝ => Real.exp (-beta * (E - E0))) Filter.atTop
      (nhds (if E = E0 then 1 else 0)) := by
  by_cases he : E = E0
  · subst he
    simp only [sub_self, mul_zero, Real.exp_zero, if_true]
    exact tendsto_const_nhds
  · simp only [he, if_false]
    have hpos : 0 < E - E0 := by
      rcases lt_or_eq_of_le h with hlt | heq
      · linarith
      · exact absurd heq.symm he
    have h1 : Filter.Tendsto (fun beta : ℝ => beta * (E - E0)) Filter.atTop Filter.atTop :=
      Filter.Tendsto.atTop_mul_const hpos Filter.tendsto_id
    have h2 : Filter.Tendsto (fun beta : ℝ => -(beta * (E - E0))) Filter.atTop Filter.atBot :=
      Filter.tendsto_neg_atTop_atBot.comp h1
    have h3 := Real.tendsto_exp_atBot.comp h2
    have hfun : (fun beta : ℝ => Real.exp (-beta * (E - E0)))
        = Real.exp ∘ (fun beta : ℝ => -(beta * (E - E0))) := by
      funext beta
      simp only [Function.comp, neg_mul]
    rw [hfun]
    exact h3

theorem sum_indicator_eq_countP (l : List ℝ) (E0 : ℝ) :
    (l.map (fun E => if E = E0 then (1 : ℝ) else 0)).sum
      = ((l.countP (fun E => decide (E = E0)) : Nat) : ℝ) := by
  induction l with
  | nil => simp
  | cons a l ih =>
    simp only [List.map_cons, List.sum_cons, ih, List.countP_cons]
    by_cases h : a = E0
    · simp [h]; ring
    · simp [h]

theorem degeneracy_cast (S : StatesClassification) (H : Hamiltonian ℝ) :
    ((H.groundStateDegeneracy S : Nat) : ℝ) =
      ((List.range S.NumberOfBlocks).map (fun n =>
        ((H.getPart n).eigenvalues.map
          (fun E => if E = H.getGroundEnergy then (1 : ℝ) else 0)).sum)).sum := by
  unfold Hamiltonian.groundStateDegeneracy
  rw [Nat.cast_list_sum, List.map_map]
  congr 1
  apply List.map_congr_left
  intro n _
  simp only [Function.comp, sum_indicator_eq_countP]

theorem degeneracy_pos (S : StatesClassification) (H : Hamiltonian ℝ)
    (hatt : ∃ n, n < S.NumberOfBlocks ∧ H.getGroundEnergy ∈ (H.getPart n).eigenvalues) :
    (1 : ℝ) ≤ ((H.groundStateDegeneracy S : Nat) : ℝ) := by
  rw [degeneracy_cast]
  obtain ⟨n0, hn0, hE0⟩ := hatt
  have hnn : ∀ (l : List ℝ), 0 ≤ (l.map
      (fun E => if E = H.getGroundEnergy then (1 : ℝ) else 0)).sum := by
    intro l
    apply sum_map_nonneg
    intro E _
    split <;> norm_num
  have h1 : (1 : ℝ) ≤ ((H.getPart n0).eigenvalues.map
      (fun E => if E = H.getGroundEnergy then (1 : ℝ) else 0)).sum := by
    have := le_sum_map_of_mem (H.getPart n0).eigenvalues
      (fun E => if E = H.getGroundEnergy then (1 : ℝ) else 0)
      (fun E _ => by simp only []; split <;> norm_num) H.getGroundEnergy hE0
    simpa using this
  have h2 := le_sum_map_of_mem (List.range S.NumberOfBlocks)
    (fun n => ((H.getPart n).eigenvalues.map
      (fun E => if E = H.getGroundEnergy then (1 : ℝ) else 0)).sum)
    (fun n _ => hnn _) n0 (List.mem_range.2 hn0)
  exact le_trans h1 h2

theorem tendsto_partition_function (S : StatesClassification) (H : Hamiltonian ℝ)
    (hmin : ∀ n, n < S.NumberOfBlocks → ∀ E ∈ (H.getPart n).eigenvalues, H.getGroundEnergy ≤ E) :
    Filter.Tendsto
      (fun beta : ℝ => ((List.range S.NumberOfBlocks).map (fun n =>
        ((H.getPart n).eigenvalues.map
          (fun E => Real.exp (-beta * (E - H.getGroundEnergy)))).sum)).sum)
      Filter.atTop (nhds ((H.groundStateDegeneracy S : Nat) : ℝ)) := by
  rw [degeneracy_cast]
  apply tendsto_list_sum (List.range S.NumberOfBlocks)
    (f := fun n (beta : ℝ) => ((H.getPart n).eigenvalues.map
      (fun E => Real.exp (-beta * (E - H.getGroundEnergy)))).sum)
    (a := fun n => ((H.getPart n).eigenvalues.map
      (fun E => if E = H.getGroundEnergy then (1 : ℝ) else 0)).sum)
  intro n hn
  apply tendsto_list_sum (H.getPart n).eigenvalues
    (f := fun E (beta : ℝ) => Real.exp (-beta * (E - H.getGroundEnergy)))
    (a := fun E => if E = H.getGroundEnergy then (1 : ℝ) else 0)
  intro E hE
  exact tendsto_boltzmann_weight E _ (hmin n (List.mem_range.1 hn) E hE)

theorem getWeight_after_load_of_not_computed {K : Type} [DecidableEq K] (d : DensityMatrix K)
    (RootGroup : CommonFG K) (q : QuantumState) (h : d.Status < ObjectStatus.Computed) :
    (d.load RootGroup).2.getWeight q = .error Exception.exStatusMismatch := by
  unfold DensityMatrix.getWeight
  rw [load_Status, if_pos h]

theorem pushIndicesLoop_some (bound : Nat) (hb : bound < 65536) :
    ∀ (k fuel i : Nat) (Indices : List Nat), i + k = bound → k < fuel →
      Sz.pushIndicesLoop bound fuel i Indices = some (Indices ++ List.range' i k) := by
  intro k
  induction k with
  | zero =>
    intro fuel i Indices hi hf
    obtain ⟨f, rfl⟩ : ∃ f, fuel = f + 1 := ⟨fuel - 1, by omega⟩
    have h1 : ¬ i < bound := by omega
    simp [Sz.pushIndicesLoop, h1]
  | succ k ih =>
    intro fuel i Indices hi hf
    obtain ⟨f, rfl⟩ : ∃ f, fuel = f + 1 := ⟨fuel - 1, by omega⟩
    have h1 : i < bound := by omega
    have hmod : (i + 1) % ParticleIndexModulus = i + 1 := by
      unfold ParticleIndexModulus
      exact Nat.mod_eq_of_lt (by omega)
    simp only [Sz.pushIndicesLoop, h1, if_true, hmod]
    rw [ih f (i + 1) _ (by omega) (by omega)]
    simp [List.range'_succ]

/-- For an even `Nmodes` below `2^16` the single-argument constructor is the two-list
constructor on the upper and the lower half of the modes. -/
theorem Sz_newNmodes_even (fuel Nmodes : Nat)
    (hrange : Nmodes < 65536) (hfuel : Nmodes < fuel) (heven : Nmodes % 2 = 0) :
    Sz.newNmodes fuel Nmodes =
      Sz.new fuel (List.range' (Nmodes / 2) (Nmodes - Nmodes / 2)) (List.range (Nmodes / 2)) := by
  have hodd : ¬ Nmodes % 2 = 1 := by omega
  have hup := pushIndicesLoop_some Nmodes hrange (Nmodes - Nmodes / 2) fuel (Nmodes / 2) []
    (by omega) (by omega)
  have hdown := pushIndicesLoop_some (Nmodes / 2) (by omega) (Nmodes / 2) fuel 0 []
    (by omega) (by omega)
  have hlen : (List.range' (Nmodes / 2) (Nmodes - Nmodes / 2)).length
      = (List.range (Nmodes / 2)).length := by
    simp only [List.length_range', List.length_range]; omega
  have hN : ((List.range' (Nmodes / 2) (Nmodes - Nmodes / 2)).length
      + (List.range (Nmodes / 2)).length) % ParticleIndexModulus = Nmodes := by
    simp only [List.length_range', List.length_range]
    unfold ParticleIndexModulus
    rw [Nat.mod_eq_of_lt (by omega)]
    omega
  have hne : ¬ ((List.range' (Nmodes / 2) (Nmodes - Nmodes / 2)).length
      ≠ (List.range (Nmodes / 2)).length) := not_not.2 hlen
  unfold Sz.newNmodes Sz.new
  rw [if_neg hodd, if_neg hne, hup, hdown, hN]
  simp only [List.nil_append, List.range_eq_range']

/-! ## Claims, continued -/

/-- C11: `load` fails whenever the stored `beta` differs from the live `beta`, and whenever the
number of stored part groups differs from the live number of parts, which is
`S.NumberOfBlocks()`; the failure is raised before the loop over the parts, so the object is
exactly what it was before the call. -/
theorem load_mismatch_fails {K : Type} [DecidableEq K] (d : DensityMatrix K)
    (DMRootGroup : H5DensityMatrixGroup K)
    (hsize : d.parts.length = d.S.NumberOfBlocks)
    (h : DMRootGroup.beta ≠ d.beta ∨ DMRootGroup.parts.length ≠ d.S.NumberOfBlocks) :
    d.load (some DMRootGroup) =
      (.error (if DMRootGroup.beta ≠ d.beta then Exception.h5DataSetIException
        else Exception.h5GroupIException), d) := by
  unfold DensityMatrix.load
  by_cases hb : DMRootGroup.beta ≠ d.beta
  · simp only [hb, ne_eq, not_false_eq_true, if_true]
  · have hn : d.parts.length ≠ DMRootGroup.parts.length := by
      rcases h with h | h
      · exact absurd h hb
      · rw [hsize]; exact fun e => h e.symm
    simp only [hb, if_false, hn, ne_eq, not_false_eq_true, if_true]

/-- Witness of C11: a one-block instance with `beta = 1` and a stored `beta = 2`. -/
theorem load_mismatch_fails_witness :
    (DensityMatrix.new ⟨1, fun _ => 0, fun q => q⟩ ⟨fun _ => ⟨[0]⟩, (0 : ℚ)⟩ 1).load
        (some { beta := 2, parts := [] }) =
      (.error (if (2 : ℚ) ≠ 1 then Exception.h5DataSetIException
        else Exception.h5GroupIException),
        DensityMatrix.new ⟨1, fun _ => 0, fun q => q⟩ ⟨fun _ => ⟨[0]⟩, (0 : ℚ)⟩ 1) :=
  load_mismatch_fails
    (DensityMatrix.new ⟨1, fun _ => 0, fun q => q⟩ ⟨fun _ => ⟨[0]⟩, (0 : ℚ)⟩ 1)
    { beta := 2, parts := [] } rfl (Or.inl (by norm_num [DensityMatrix.new]))

/-- Lookup made by `getWeight` on any record with status `Computed`: for a state `q` whose block
and inner index exist it returns what part number `S.getBlockNumber(q)` stores at inner index
`S.getInnerState(q)`. -/
theorem getWeight_eq_stored_weight {K : Type} (d : DensityMatrix K) (q : QuantumState)
    (part : DensityMatrixPart K) (w : K)
    (hst : d.Status = ObjectStatus.Computed)
    (hpart : d.parts.get? (d.S.getBlockNumber q) = some (some part))
    (hw : part.weights.get? (d.S.getInnerState q) = some w) :
    d.getWeight q = .ok w := by
  have hlt : ¬ d.Status < ObjectStatus.Computed := by rw [hst]; decide
  simp only [DensityMatrix.getWeight, hlt, if_false, hpart, DensityMatrixPart.getWeight, hw]

/-- The lookup on a record with two blocks; the state 5 lives in block 1 at inner index 0. -/
theorem getWeight_eq_stored_weight_example :
    DensityMatrix.getWeight
      { beta := (1 : ℚ)
        Status := ObjectStatus.Computed
        S := ⟨2, fun q => if q = 5 then 1 else 0, fun _ => 0⟩
        H := ⟨fun _ => ⟨[0]⟩, 0⟩
        parts := [some ⟨[0], 1, 0, [1 / 3]⟩, some ⟨[0], 1, 0, [2 / 3]⟩] } 5 = .ok (2 / 3) :=
  getWeight_eq_stored_weight _ 5 ⟨[0], 1, 0, [2 / 3]⟩ (2 / 3) rfl rfl rfl

/-- C14: the status never regresses. For every state and every operation among `prepare`,
`compute`, `save`, `load` and the four queries, whether it returns or throws, the status of the
object after the operation is at least the status before it. -/
theorem Status_never_regresses {K : Type} [Field K] [DecidableEq K] (expf : K → K)
    (partAverageOccupancy : DensityMatrixPart K → K)
    (partAverageDoubleOccupancy : DensityMatrixPart K → ParticleIndex → ParticleIndex → K)
    (d d' : DensityMatrix K) (op : Operation K)
    (h : d.stateAfter expf partAverageOccupancy partAverageDoubleOccupancy op = some d') :
    d.Status ≤ d'.Status := by
  cases op with
  | prepare =>
    simp only [DensityMatrix.stateAfter, Option.some.injEq] at h
    rw [← h]; exact prepare_Status_ge d
  | compute =>
    simp only [DensityMatrix.stateAfter] at h
    cases hc : d.compute expf with
    | error e => simp [hc] at h
    | ok d1 =>
      simp only [hc, Option.some.injEq] at h
      rw [← h, compute_ok_status expf d d1 hc]
      exact status_le_computed _
  | save RootGroup =>
    rw [stateAfterConst_eq d d' _ h]; exact status_le_refl _
  | load RootGroup =>
    simp only [DensityMatrix.stateAfter] at h
    have hs := load_Status d RootGroup
    cases ho : (d.load RootGroup).1 with
    | ok u =>
      simp only [ho, Option.some.injEq] at h
      rw [← h, hs]; exact status_le_refl _
    | error e =>
      simp only [ho] at h
      split at h
      · cases h
      · simp only [Option.some.injEq] at h
        rw [← h, hs]; exact status_le_refl _
  | getWeight state =>
    rw [stateAfterConst_eq d d' _ h]; exact status_le_refl _
  | getAverageEnergy =>
    rw [stateAfterConst_eq d d' _ h]; exact status_le_refl _
  | getAverageOccupancy =>
    rw [stateAfterConst_eq d d' _ h]; exact status_le_refl _
  | getAverageDoubleOccupancy i j =>
    rw [stateAfterConst_eq d d' _ h]; exact status_le_refl _

/-- Witness of C14: `prepare` on a freshly constructed one-block instance. -/
theorem Status_never_regresses_witness :
    (DensityMatrix.new ⟨1, fun _ => 0, fun q => q⟩ ⟨fun _ => ⟨[0]⟩, (0 : ℚ)⟩ 1).Status ≤
      (DensityMatrix.new ⟨1, fun _ => 0, fun q => q⟩ ⟨fun _ => ⟨[0]⟩, (0 : ℚ)⟩ 1).prepare.Status :=
  Status_never_regresses (fun x => x) (fun _ => 0) (fun _ _ _ => 0)
    (DensityMatrix.new ⟨1, fun _ => 0, fun q => q⟩ ⟨fun _ => ⟨[0]⟩, (0 : ℚ)⟩ 1) _
    Operation.prepare rfl

/-- C15: `Cdag(i)` and `C(i)` each hold exactly one term, with coefficient 1 and the single
elementary creation (resp. annihilation) on mode `i`. Applying the term of `Cdag(i)` to any state
and then again to the result yields no state, and applying the term of `C(i)` to a state with
bit `i` unset yields no state; the same holds for the result maps of `actRight`. -/
theorem Cdag_twice_zero_and_C_unoccupied_zero (i : ParticleIndex) (s s0 : FockState)
    (h0 : s0.test i = false) :
    (Cdag.new i).Terms = [((1 : MelemType), [(true, i)])] ∧
    (C.new i).Terms = [((1 : MelemType), [(false, i)])] ∧
    (Term.actRight ((1 : MelemType), [(true, i)]) s).bind
        (fun r => Term.actRight ((1 : MelemType), [(true, i)]) r.1) = none ∧
    (∀ r ∈ Operator.actRight (Cdag.new i).Terms s,
        Operator.actRight (Cdag.new i).Terms r.1 = []) ∧
    Term.actRight ((1 : MelemType), [(false, i)]) s0 = none ∧
    Operator.actRight (C.new i).Terms s0 = [] := by
  have hC : Term.actRight ((1 : MelemType), [(false, i)]) s0 = none := by
    rw [singleOp_actRight, ElemOp_act_annihilate_unoccupied i s0 h0]; rfl
  have hD : ∀ r, Term.actRight ((1 : MelemType), [(true, i)]) s = some r →
      Term.actRight ((1 : MelemType), [(true, i)]) r.1 = none := by
    intro r hr
    rw [singleOp_actRight] at hr
    cases hact : ElemOp.act (true, i) s with
    | none => simp [hact] at hr
    | some r1 =>
      simp only [hact, Option.map_some', Option.some.injEq] at hr
      subst hr
      rw [singleOp_actRight, ElemOp_act_twice true i s r1 hact]; rfl
  refine ⟨rfl, rfl, ?_, ?_, hC, ?_⟩
  · cases hr : Term.actRight ((1 : MelemType), [(true, i)]) s with
    | none => rfl
    | some r => simp only [Option.some_bind]; exact hD r hr
  · intro r hr
    simp only [Cdag.new, List.nil_append, Operator.actRight, List.foldl_cons, List.foldl_nil]
      at hr ⊢
    cases hact : Term.actRight ((1 : MelemType), [(true, i)]) s with
    | none => simp [hact] at hr
    | some r1 =>
      simp only [hact, FockMap.accumulate, List.mem_singleton] at hr
      subst hr
      simp only [hD r1 hact]
  · simp only [C.new, List.nil_append, Operator.actRight, List.foldl_cons, List.foldl_nil, hC]

/-- Witness of C15: mode 1 on the two-mode states `{0,0}` and `{1,0}`. -/
theorem Cdag_twice_zero_and_C_unoccupied_zero_witness :
    (Term.actRight ((1 : MelemType), [(true, 1)]) ⟨[false, false]⟩).bind
        (fun r => Term.actRight ((1 : MelemType), [(true, 1)]) r.1) = none ∧
    Term.actRight ((1 : MelemType), [(false, 1)]) ⟨[true, false]⟩ = none :=
  ⟨(Cdag_twice_zero_and_C_unoccupied_zero 1 ⟨[false, false]⟩ ⟨[true, false]⟩ rfl).2.2.1,
    (Cdag_twice_zero_and_C_unoccupied_zero 1 ⟨[false, false]⟩ ⟨[true, false]⟩ rfl).2.2.2.2.1⟩

/-- C16: `compute()` is two-pass. On a `Prepared` density matrix whose parts are all allocated,
the calls made on the parts are: `computeUnnormalized()` on part 0, 1, ... in order, then
`normalize(Z)` on part 0, 1, ... in order, every `normalize` with the same `Z`, the sum of the
values returned by the `computeUnnormalized()` calls. -/
theorem compute_two_pass {K : Type} [Field K] (expf : K → K) (d : DensityMatrix K)
    (ps : List (DensityMatrixPart K)) (hst : d.Status = ObjectStatus.Prepared)
    (hparts : d.parts = ps.map some) :
    ∃ d', d.compute expf = .ok d' ∧
      d.computeTrace expf = .ok (d',
        ps.enum.map (fun x => PartCall.computeUnnormalized x.1 (x.2.computeUnnormalized expf).2)
        ++ ps.enum.map (fun x => PartCall.normalize x.1
            (ps.map (fun p => (p.computeUnnormalized expf).2)).sum)) := by
  have hne : d.Status ≠ ObjectStatus.Computed := by rw [hst]; decide
  have hns : ¬ (d.Status ≥ ObjectStatus.Computed) := by
    rw [status_ge_computed_iff]; exact hne
  refine ⟨_, compute_of_allocated expf d ps hparts hne, ?_⟩
  have hnorm : ∀ (Z : K) (n : BlockNumber),
      DensityMatrix.normalizeLoopTrace Z (ps.map (fun p => some (p.computeUnnormalized expf).1)) n
        = .ok (ps.map (fun p => some ((p.computeUnnormalized expf).1.normalize Z)),
          (ps.enumFrom n).map (fun x => PartCall.normalize x.1 Z)) := by
    intro Z n
    have h := normalizeLoopTrace_some Z (ps.map (fun p => (p.computeUnnormalized expf).1)) n
    rw [List.map_map, List.map_map] at h
    rw [show (ps.map (fun p => some (p.computeUnnormalized expf).1))
        = List.map (some ∘ fun p => (p.computeUnnormalized expf).1) ps from rfl, h]
    congr 2
    exact enumFrom_map_fst (fun p => (DensityMatrixPart.computeUnnormalized expf p).1)
      (fun m => PartCall.normalize m Z) ps n
  simp only [DensityMatrix.computeTrace, hns, if_false, hparts, computeUnnormalizedLoopTrace_some,
    hnorm, List.enum, zero_add]

/-- Witness of C16: a prepared instance with two allocated parts. -/
theorem compute_two_pass_witness :
    ∃ d', DensityMatrix.compute (fun x : ℚ => 1 + x * x)
        { beta := 1
          Status := ObjectStatus.Prepared
          S := ⟨2, fun q => q, fun _ => 0⟩
          H := ⟨fun _ => ⟨[0]⟩, 0⟩
          parts := ([⟨[0], 1, 0, [0]⟩, ⟨[1], 1, 0, [0]⟩] : List (DensityMatrixPart ℚ)).map some }
        = .ok d' ∧
      DensityMatrix.computeTrace (fun x : ℚ => 1 + x * x)
        { beta := 1
          Status := ObjectStatus.Prepared
          S := ⟨2, fun q => q, fun _ => 0⟩
          H := ⟨fun _ => ⟨[0]⟩, 0⟩
          parts := ([⟨[0], 1, 0, [0]⟩, ⟨[1], 1, 0, [0]⟩] : List (DensityMatrixPart ℚ)).map some }
        = .ok (d',
          ([⟨[0], 1, 0, [0]⟩, ⟨[1], 1, 0, [0]⟩] : List (DensityMatrixPart ℚ)).enum.map
            (fun x => PartCall.computeUnnormalized x.1
              (x.2.computeUnnormalized (fun x : ℚ => 1 + x * x)).2)
          ++ ([⟨[0], 1, 0, [0]⟩, ⟨[1], 1, 0, [0]⟩] : List (DensityMatrixPart ℚ)).enum.map
            (fun x => PartCall.normalize x.1
              (([⟨[0], 1, 0, [0]⟩, ⟨[1], 1, 0, [0]⟩] : List (DensityMatrixPart ℚ)).map
                (fun p => (p.computeUnnormalized (fun x : ℚ => 1 + x * x)).2)).sum)) :=
  compute_two_pass (fun x : ℚ => 1 + x * x) _
    ([⟨[0], 1, 0, [0]⟩, ⟨[1], 1, 0, [0]⟩] : List (DensityMatrixPart ℚ)) rfl rfl

/-- C17: `prepare()` on a freshly constructed density matrix leaves the status `Prepared` and
exactly `S.NumberOfBlocks()` parts, part `n` constructed from `H.getPart(n)`, the `beta` of the
density matrix and the one value `H.getGroundEnergy()`. -/
theorem prepare_builds_every_part {K : Type} [Field K] (S : StatesClassification)
    (H : Hamiltonian K) (beta : K) :
    (DensityMatrix.new S H beta).prepare.Status = ObjectStatus.Prepared ∧
    (DensityMatrix.new S H beta).prepare.parts.length = S.NumberOfBlocks ∧
    (DensityMatrix.new S H beta).prepare.parts =
      (List.range S.NumberOfBlocks).map
        (fun n => some (DensityMatrixPart.new (H.getPart n) beta H.getGroundEnergy)) ∧
    (DensityMatrix.new S H beta).prepare.beta = beta := by
  rw [prepare_new]
  simp

/-- C20: in every state reached from a freshly constructed density matrix by a sequence of
operations (`prepare()` and `compute()` calls, and also `save`, `load` and the queries) none of
which is undefined, a status of at least `Prepared` implies that the part vector has
`S.NumberOfBlocks()` entries and each of them holds a part; hence `getWeight` and the three
averages never dereference a missing part. -/
theorem parts_allocated_when_prepared {K : Type} [Field K] [DecidableEq K] (expf : K → K)
    (partAverageOccupancy : DensityMatrixPart K → K)
    (partAverageDoubleOccupancy : DensityMatrixPart K → ParticleIndex → ParticleIndex → K)
    (S : StatesClassification) (H : Hamiltonian K) (beta : K) (ops : List (Operation K))
    (d : DensityMatrix K) (state : QuantumState) (i j : ParticleIndex)
    (hrun : DensityMatrix.run expf partAverageOccupancy partAverageDoubleOccupancy ops
      (DensityMatrix.new S H beta) = some d)
    (hst : d.Status ≥ ObjectStatus.Prepared) :
    d.parts.length = S.NumberOfBlocks ∧
    (∀ n, n < S.NumberOfBlocks → ∃ part, d.parts.get? n = some (some part)) ∧
    d.getWeight state ≠ .error Exception.nullDereference ∧
    d.getAverageEnergy ≠ .error Exception.nullDereference ∧
    d.getAverageOccupancy partAverageOccupancy ≠ .error Exception.nullDereference ∧
    d.getAverageDoubleOccupancy partAverageDoubleOccupancy i j
      ≠ .error Exception.nullDereference := by
  have hnew : (DensityMatrix.new S H beta).S = S ∧
      (DensityMatrix.new S H beta).parts.length = S.NumberOfBlocks ∧
      ((DensityMatrix.new S H beta).Status ≥ ObjectStatus.Prepared →
        ∀ p ∈ (DensityMatrix.new S H beta).parts, p ≠ none) := by
    refine ⟨rfl, by simp [DensityMatrix.new], ?_⟩
    intro hc
    have hno : ¬ (ObjectStatus.Constructed ≥ ObjectStatus.Prepared) := by decide
    exact absurd hc hno
  obtain ⟨_, hlen, hall⟩ := run_invariant expf _ _ S ops _ d hrun hnew
  have hall := hall hst
  have hget : ∀ n, n < S.NumberOfBlocks → ∃ part, d.parts.get? n = some (some part) := by
    intro n hn
    have hn2 : n < d.parts.length := by rw [hlen]; exact hn
    cases hp : d.parts[n] with
    | none => exact absurd hp (hall _ (List.getElem_mem hn2))
    | some part => exact ⟨part, by rw [List.get?_eq_getElem?, List.getElem?_eq_getElem hn2, hp]⟩
  have havg : ∀ value : DensityMatrixPart K → K,
      (if d.Status < ObjectStatus.Computed then
        (.error Exception.exStatusMismatch : Except Exception K)
      else DensityMatrix.sumOverParts value d.parts 0) ≠ .error Exception.nullDereference := by
    intro value
    split
    · simp
    · obtain ⟨v, hv⟩ := sumOverParts_ok value d.parts 0 hall
      rw [hv]; simp
  refine ⟨hlen, hget, ?_, havg _, havg _, havg _⟩
  unfold DensityMatrix.getWeight
  split
  · simp
  · simp only []
    cases hp : d.parts.get? (d.S.getBlockNumber state) with
    | none => simp
    | some o =>
      cases o with
      | none =>
        exfalso
        exact hall none (List.get?_mem hp) rfl
      | some part =>
        simp only [DensityMatrixPart.getWeight]
        cases part.weights.get? (d.S.getInnerState state) <;> simp

/-- Witness of C20: `prepare()` then `compute()` on a freshly constructed one-block instance. -/
theorem parts_allocated_when_prepared_witness :
    DensityMatrix.run (fun _ : ℚ => 1) (fun _ => 0) (fun _ _ _ => 0)
        [Operation.prepare, Operation.compute]
        (DensityMatrix.new ⟨1, fun _ => 0, fun q => q⟩ ⟨fun _ => ⟨[0]⟩, (0 : ℚ)⟩ 1) =
      some
        { beta := 1
          Status := ObjectStatus.Computed
          S := ⟨1, fun _ => 0, fun q => q⟩
          H := ⟨fun _ => ⟨[0]⟩, 0⟩
          parts := [some ⟨[0], 1, 0, [1 / (0 + (1 + 0))]⟩] } ∧
    ([some ⟨[0], 1, 0, [1 / (0 + (1 + 0))]⟩] : List (Option (DensityMatrixPart ℚ))).length = 1 :=
  ⟨rfl,
    (parts_allocated_when_prepared (fun _ : ℚ => 1) (fun _ => 0) (fun _ _ _ => 0)
      ⟨1, fun _ => 0, fun q => q⟩ ⟨fun _ => ⟨[0]⟩, (0 : ℚ)⟩ 1
      [Operation.prepare, Operation.compute]
      { beta := 1
        Status := ObjectStatus.Computed
        S := ⟨1, fun _ => 0, fun q => q⟩
        H := ⟨fun _ => ⟨[0]⟩, 0⟩
        parts := [some ⟨[0], 1, 0, [1 / (0 + (1 + 0))]⟩] } 0 0 0 rfl (by decide)).1⟩

/-- Exact arithmetic only, over the reals with `Real.exp`: when the ground energy handed to the
parts is the minimum eigenvalue over all blocks and `beta > 0`, the first loop of `compute()` on
the prepared density matrix returns parts whose weights all lie in `(0, 1]` and a partition
function `Z` with `1 ≤ Z ≤ D`, `D` the total number of states; `Z` is not zero, and it is the `Z`
by which `compute()` normalizes. The statement does not carry over to `RealType = double`
(Misc.h:51), where `exp` of a large negative argument underflows to `0`. -/
theorem unnormalized_weights_in_unit_interval (S : StatesClassification) (H : Hamiltonian ℝ)
    (beta : ℝ) (hbeta : 0 < beta)
    (hmin : ∀ n, n < S.NumberOfBlocks → ∀ E ∈ (H.getPart n).eigenvalues, H.getGroundEnergy ≤ E)
    (hatt : ∃ n, n < S.NumberOfBlocks ∧ H.getGroundEnergy ∈ (H.getPart n).eigenvalues) :
    ∃ parts Z d,
      DensityMatrix.computeUnnormalizedLoop Real.exp (DensityMatrix.new S H beta).prepare.parts 0
        = .ok (parts, Z) ∧
      (∀ part, some part ∈ parts → ∀ w ∈ part.weights, 0 < w ∧ w ≤ 1) ∧
      1 ≤ Z ∧
      Z ≤ ((((List.range S.NumberOfBlocks).map
          (fun n => (H.getPart n).eigenvalues.length)).sum : Nat) : ℝ) ∧
      Z ≠ 0 ∧
      DensityMatrix.normalizeLoop Z parts = .ok d.parts ∧
      (DensityMatrix.new S H beta).prepare.compute Real.exp = .ok d := by
  have hparts : (DensityMatrix.new S H beta).prepare.parts =
      ((List.range S.NumberOfBlocks).map
        (fun n => DensityMatrixPart.new (H.getPart n) beta H.getGroundEnergy)).map some := by
    rw [prepare_new, List.map_map]
    rfl
  have hst : (DensityMatrix.new S H beta).prepare.Status ≠ ObjectStatus.Computed := by
    rw [prepare_new]; intro h; cases h
  obtain ⟨hZ1, hZ2⟩ := partition_function_bounds S H beta hbeta hmin hatt
  refine ⟨((List.range S.NumberOfBlocks).map
        (fun n => DensityMatrixPart.new (H.getPart n) beta H.getGroundEnergy)).map
          (fun p => some (p.computeUnnormalized Real.exp).1),
    0 + (((List.range S.NumberOfBlocks).map
        (fun n => DensityMatrixPart.new (H.getPart n) beta H.getGroundEnergy)).map
          (fun p => (p.computeUnnormalized Real.exp).2)).sum,
    _, ?_, ?_, ?_, ?_, ?_, ?_, compute_of_allocated Real.exp _ _ hparts hst⟩
  · rw [hparts, computeUnnormalizedLoop_some]
  · intro part hpart w hw
    obtain ⟨p, hp, hpe⟩ := List.mem_map.1 hpart
    obtain ⟨n, hn, rfl⟩ := List.mem_map.1 hp
    simp only [Option.some.injEq] at hpe
    subst hpe
    simp only [DensityMatrixPart.computeUnnormalized, DensityMatrixPart.new, List.mem_map] at hw
    obtain ⟨E, hE, rfl⟩ := hw
    exact boltzmann_weight_bounds beta E _ hbeta (hmin n (List.mem_range.1 hn) E hE)
  · rw [zero_add, unnormalized_sum_eq]; exact hZ1
  · rw [zero_add, unnormalized_sum_eq]; exact hZ2
  · rw [zero_add, unnormalized_sum_eq]; linarith
  · exact normalizeLoop_computeUnnormalized Real.exp _ _

/-- The exact-arithmetic bounds on one block with the eigenvalues 0 and 1, ground energy 0,
`beta = 1`. -/
theorem unnormalized_weights_in_unit_interval_witness :
    ∃ parts Z d,
      DensityMatrix.computeUnnormalizedLoop Real.exp
          (DensityMatrix.new ⟨1, fun _ => 0, fun q => q⟩
            ⟨fun _ => ⟨[0, 1]⟩, (0 : ℝ)⟩ 1).prepare.parts 0
        = .ok (parts, Z) ∧
      (∀ part, some part ∈ parts → ∀ w ∈ part.weights, 0 < w ∧ w ≤ 1) ∧
      1 ≤ Z ∧
      Z ≤ ((((List.range 1).map (fun _ => ([0, 1] : List ℝ).length)).sum : Nat) : ℝ) ∧
      Z ≠ 0 ∧
      DensityMatrix.normalizeLoop Z parts = .ok d.parts ∧
      (DensityMatrix.new ⟨1, fun _ => 0, fun q => q⟩
        ⟨fun _ => ⟨[0, 1]⟩, (0 : ℝ)⟩ 1).prepare.compute Real.exp = .ok d :=
  unnormalized_weights_in_unit_interval ⟨1, fun _ => 0, fun q => q⟩
    ⟨fun _ => ⟨[0, 1]⟩, (0 : ℝ)⟩ 1 (by norm_num)
    (by intro n _ E hE; simp at hE; rcases hE with rfl | rfl <;> norm_num)
    ⟨0, by decide, by simp⟩

/-- C19, as stated, fails: for one block with the two eigenvalues 0 and 0 (a twofold degenerate
ground state) the weight that `getWeight` returns for the ground state 0 is one half for every
`beta`, so it does not tend to 1 as `beta` grows. -/
theorem degenerate_ground_state_weight_not_to_one :
    (∀ beta : ℝ, DensityMatrix.computedWeight Real.exp ⟨1, fun _ => 0, fun q => q⟩
        ⟨fun _ => ⟨[0, 0]⟩, (0 : ℝ)⟩ beta 0 = 1 / 2) ∧
    ¬ Filter.Tendsto
      (fun beta : ℝ => DensityMatrix.computedWeight Real.exp ⟨1, fun _ => 0, fun q => q⟩
        ⟨fun _ => ⟨[0, 0]⟩, (0 : ℝ)⟩ beta 0)
      Filter.atTop (nhds 1) := by
  have hval : ∀ beta : ℝ, DensityMatrix.computedWeight Real.exp ⟨1, fun _ => 0, fun q => q⟩
      ⟨fun _ => ⟨[0, 0]⟩, (0 : ℝ)⟩ beta 0 = 1 / 2 := by
    intro beta
    rw [computedWeight_eq Real.exp ⟨1, fun _ => 0, fun q => q⟩ ⟨fun _ => ⟨[0, 0]⟩, (0 : ℝ)⟩
      beta 0 0 (by decide) rfl]
    simp
    norm_num
  refine ⟨hval, ?_⟩
  intro h
  have hfun : (fun beta : ℝ => DensityMatrix.computedWeight Real.exp
      ⟨1, fun _ => 0, fun q => q⟩ ⟨fun _ => ⟨[0, 0]⟩, (0 : ℝ)⟩ beta 0)
      = fun _ => (1 / 2 : ℝ) := funext hval
  rw [hfun] at h
  have := tendsto_nhds_unique h tendsto_const_nhds
  norm_num at this

/-- C19, amended: for a spectrum whose minimum over all blocks is the ground energy `E0`, as
`beta` tends to plus infinity the weight that `getWeight` returns after `prepare()` and
`compute()` tends to `1 / g` for every state of energy `E0`, where `g` is the number of states of
energy `E0`, and to 0 for every other state; for a non-degenerate ground state `g = 1` and its
weight tends to 1. -/
theorem ground_state_dominance (S : StatesClassification) (H : Hamiltonian ℝ)
    (q : QuantumState) (E : ℝ)
    (hmin : ∀ n, n < S.NumberOfBlocks → ∀ E ∈ (H.getPart n).eigenvalues, H.getGroundEnergy ≤ E)
    (hatt : ∃ n, n < S.NumberOfBlocks ∧ H.getGroundEnergy ∈ (H.getPart n).eigenvalues)
    (hn : S.getBlockNumber q < S.NumberOfBlocks)
    (hE : (H.getPart (S.getBlockNumber q)).eigenvalues.get? (S.getInnerState q) = some E) :
    Filter.Tendsto (fun beta : ℝ => DensityMatrix.computedWeight Real.exp S H beta q)
      Filter.atTop
      (nhds (if E = H.getGroundEnergy then 1 / ((H.groundStateDegeneracy S : Nat) : ℝ) else 0)) := by
  have hfun : (fun beta : ℝ => DensityMatrix.computedWeight Real.exp S H beta q)
      = fun beta : ℝ => Real.exp (-beta * (E - H.getGroundEnergy)) /
        ((List.range S.NumberOfBlocks).map (fun n =>
          ((H.getPart n).eigenvalues.map
            (fun E => Real.exp (-beta * (E - H.getGroundEnergy)))).sum)).sum :=
    funext (fun beta => computedWeight_eq Real.exp S H beta q E hn hE)
  have hEmem : E ∈ (H.getPart (S.getBlockNumber q)).eigenvalues := List.get?_mem hE
  have hg : ((H.groundStateDegeneracy S : Nat) : ℝ) ≠ 0 := by
    have := degeneracy_pos S H hatt
    linarith
  have hlim := Filter.Tendsto.div
    (tendsto_boltzmann_weight E H.getGroundEnergy (hmin _ hn E hEmem))
    (tendsto_partition_function S H hmin) hg
  rw [hfun]
  by_cases he : E = H.getGroundEnergy
  · simp only [he, if_true] at hlim ⊢
    exact hlim
  · simp only [he, if_false, zero_div] at hlim ⊢
    exact hlim

/-- Witness of C19 amended: one block with the eigenvalues 0 and 1; the state 0 is the ground
state. -/
theorem ground_state_dominance_witness :
    Filter.Tendsto
      (fun beta : ℝ => DensityMatrix.computedWeight Real.exp ⟨1, fun _ => 0, fun q => q⟩
        ⟨fun _ => ⟨[0, 1]⟩, (0 : ℝ)⟩ beta 0)
      Filter.atTop
      (nhds (if (0 : ℝ) = 0 then
        1 / ((Hamiltonian.groundStateDegeneracy ⟨fun _ => ⟨[0, 1]⟩, (0 : ℝ)⟩
          ⟨1, fun _ => 0, fun q => q⟩ : Nat) : ℝ) else 0)) :=
  ground_state_dominance ⟨1, fun _ => 0, fun q => q⟩ ⟨fun _ => ⟨[0, 1]⟩, (0 : ℝ)⟩ 0 0
    (by intro n _ E hE; simp at hE; rcases hE with rfl | rfl <;> norm_num)
    ⟨0, by decide, by simp⟩ (by decide) rfl

/-- C12 at the failing input: one block with the single eigenvalue 0 and `beta = 1`. The computed
density matrix answers `getWeight(0)` with 1 and saves itself; `load` on a freshly constructed
instance over the same `S`, `H` and `beta` dereferences the null part pointer of block 0; and on
such an instance after `prepare()`, `load` returns but leaves the status `Prepared`, so
`getWeight(0)` raises the status-mismatch failure instead of returning 1. -/
theorem load_does_not_restore_getWeight :
    ∃ d RootGroup,
      (DensityMatrix.new ⟨1, fun _ => 0, fun q => q⟩ ⟨fun _ => ⟨[0]⟩, (0 : ℝ)⟩ 1).prepare.compute
        Real.exp = .ok d ∧
      d.Status = ObjectStatus.Computed ∧
      d.getWeight 0 = .ok 1 ∧
      d.save none = .ok RootGroup ∧
      (DensityMatrix.new ⟨1, fun _ => 0, fun q => q⟩ ⟨fun _ => ⟨[0]⟩, (0 : ℝ)⟩ 1).load RootGroup
        = (.error Exception.nullDereference,
            DensityMatrix.new ⟨1, fun _ => 0, fun q => q⟩ ⟨fun _ => ⟨[0]⟩, (0 : ℝ)⟩ 1) ∧
      ((DensityMatrix.new ⟨1, fun _ => 0, fun q => q⟩ ⟨fun _ => ⟨[0]⟩, (0 : ℝ)⟩ 1).prepare.load
        RootGroup).1 = .ok () ∧
      ((DensityMatrix.new ⟨1, fun _ => 0, fun q => q⟩ ⟨fun _ => ⟨[0]⟩, (0 : ℝ)⟩ 1).prepare.load
        RootGroup).2.getWeight 0 = .error Exception.exStatusMismatch := by
  have hparts : (DensityMatrix.new ⟨1, fun _ => 0, fun q => q⟩
      ⟨fun _ => ⟨[0]⟩, (0 : ℝ)⟩ 1).prepare.parts =
      ([⟨[0], 1, 0, [0]⟩] : List (DensityMatrixPart ℝ)).map some := by
    rw [prepare_new]
    simp [DensityMatrixPart.new]
  have hst : (DensityMatrix.new ⟨1, fun _ => 0, fun q => q⟩
      ⟨fun _ => ⟨[0]⟩, (0 : ℝ)⟩ 1).prepare.Status ≠ ObjectStatus.Computed := by
    rw [prepare_new]; intro h; cases h
  have hlt : ¬ (ObjectStatus.Computed < ObjectStatus.Computed) := by decide
  refine ⟨_, some { beta := 1, parts := [(toString 0, ⟨[1]⟩)] },
    compute_of_allocated Real.exp _ _ hparts hst, rfl, ?_, ?_, ?_, ?_, ?_⟩
  · simp [DensityMatrix.getWeight, hlt, prepare_new, DensityMatrixPart.getWeight,
      DensityMatrixPart.normalize, DensityMatrixPart.computeUnnormalized]
  · simp [DensityMatrix.save, DensityMatrix.saveLoop, prepare_new, DensityMatrixPart.save,
      DensityMatrixPart.normalize, DensityMatrixPart.computeUnnormalized]
  · simp [DensityMatrix.load, DensityMatrix.new, DensityMatrix.loadLoop, openGroup, List.range_succ]
  · simp [DensityMatrix.load, prepare_new, DensityMatrix.loadLoop, openGroup, List.range_succ]
  · apply getWeight_after_load_of_not_computed
    rw [prepare_new]
    decide

/-- C21: for every `Nmodes` in the range of `ParticleIndex`, the single-argument constructor
`Sz(Nmodes)` raises `exWrongLabel` if and only if `Nmodes` is odd; for an even `Nmodes` it returns
the operator that the two-list constructor returns on `SpinUpIndices = [Nmodes/2, ..., Nmodes-1]`
and `SpinDownIndices = [0, ..., Nmodes/2 - 1]`: the same index lists, the same terms in the same
order, the same member `Nmodes`, hence the same matrix elements. -/
theorem Sz_newNmodes_eq_two_list_constructor (fuel Nmodes : Nat) (hrange : Nmodes < 65536)
    (hfuel : Nmodes < fuel) :
    (Sz.newNmodes fuel Nmodes = some (.error Exception.exWrongLabel) ↔ Nmodes % 2 = 1) ∧
    Sz.newNmodes fuel Nmodes =
      (if Nmodes % 2 = 1 then some (.error Exception.exWrongLabel)
      else Sz.new fuel (List.range' (Nmodes / 2) (Nmodes - Nmodes / 2))
        (List.range (Nmodes / 2))) ∧
    (Nmodes % 2 = 1 ∨
      ∃ sz, Sz.newNmodes fuel Nmodes = some (.ok sz) ∧
        Sz.new fuel (List.range' (Nmodes / 2) (Nmodes - Nmodes / 2)) (List.range (Nmodes / 2))
          = some (.ok sz) ∧
        sz.SpinUpIndices = List.range' (Nmodes / 2) (Nmodes - Nmodes / 2) ∧
        sz.SpinDownIndices = List.range (Nmodes / 2) ∧
        sz.Nmodes = Nmodes ∧
        sz.Terms = Sz.termPairs (List.range' (Nmodes / 2) (Nmodes - Nmodes / 2))
          (List.range (Nmodes / 2))) := by
  by_cases hodd : Nmodes % 2 = 1
  · have h : Sz.newNmodes fuel Nmodes = some (.error Exception.exWrongLabel) := by
      unfold Sz.newNmodes
      rw [if_pos hodd]
    refine ⟨⟨fun _ => hodd, fun _ => h⟩, ?_, Or.inl hodd⟩
    rw [if_pos hodd]
    exact h
  · have heven : Nmodes % 2 = 0 := by omega
    have hlen : (List.range' (Nmodes / 2) (Nmodes - Nmodes / 2)).length
        = (List.range (Nmodes / 2)).length := by
      simp only [List.length_range', List.length_range]; omega
    have hL : (List.range' (Nmodes / 2) (Nmodes - Nmodes / 2)).length < ParticleIndexModulus := by
      unfold ParticleIndexModulus
      simp only [List.length_range']; omega
    have hf : (List.range' (Nmodes / 2) (Nmodes - Nmodes / 2)).length < fuel := by
      simp only [List.length_range']; omega
    have hN : ((List.range' (Nmodes / 2) (Nmodes - Nmodes / 2)).length
        + (List.range (Nmodes / 2)).length) % ParticleIndexModulus = Nmodes := by
      simp only [List.length_range', List.length_range]
      unfold ParticleIndexModulus
      rw [Nat.mod_eq_of_lt (by omega)]
      omega
    have hnew := Sz_new_succeeds fuel _ _ hlen hL hf
    have heq := Sz_newNmodes_even fuel Nmodes hrange hfuel heven
    refine ⟨⟨fun h => ?_, fun h => absurd h hodd⟩, ?_, Or.inr ⟨_, heq.trans hnew, hnew, rfl, rfl,
      hN, rfl⟩⟩
    · rw [heq, hnew] at h
      simp at h
    · rw [if_neg hodd]
      exact heq

/-- Witness of C21: `Sz(4)` is the two-list constructor on `[2, 3]` and `[0, 1]`. -/
theorem Sz_newNmodes_eq_two_list_constructor_witness :
    Sz.newNmodes 5 4 =
      (if 4 % 2 = 1 then some (.error Exception.exWrongLabel)
      else Sz.new 5 (List.range' (4 / 2) (4 - 4 / 2)) (List.range (4 / 2))) :=
  (Sz_newNmodes_eq_two_list_constructor 5 4 (by decide) (by decide)).2.1

/-- C22: the table `permutations4` has 24 entries with pairwise distinct `perm` arrays; each
`perm` array has four entries, all different and all below 4, so it is a bijection on
`{0,1,2,3}`; the arrays come in strictly increasing lexicographic order; every permutation of
four elements occurs in the table, with the sign of that permutation; and the `sign` field of
every entry is the sign of its permutation, `+1` for an even and `-1` for an odd number of
inversions. -/
theorem permutations4_complete_and_signed :
    permutations4.length = 24 ∧
    (permutations4.map (fun e => e.perm)).Nodup ∧
    (∀ e ∈ permutations4, e.perm.length = 4 ∧ e.perm.Nodup ∧ ∀ x ∈ e.perm, x < 4) ∧
    (permutations4.map (fun e => e.perm)).Pairwise (fun a b => a < b) ∧
    (∀ σ : Equiv.Perm (Fin 4), ∃ e ∈ permutations4,
      e.perm = List.ofFn (fun i => (σ i).val) ∧ e.sign = ((Equiv.Perm.sign σ : ℤˣ) : ℤ)) ∧
    (∀ e ∈ permutations4, ∃ σ : Equiv.Perm (Fin 4),
      e.perm = List.ofFn (fun i => (σ i).val) ∧ e.sign = ((Equiv.Perm.sign σ : ℤˣ) : ℤ)) ∧
    (∀ e ∈ permutations4, e.sign = (-1) ^ inversions e.perm) := by
  refine ⟨by decide, by decide, by decide, by decide, by decide, by decide, by decide⟩

/-! ## The computed density matrix and its weights -/

end Pomerol
